import Mathlib

/-
Verification development for the toolflow workflow engine.

Shallow embedding of the data model and the operators of the source tree
(data_cell.rs, data_header.rs, wiki_page.rs, data_file.rs, filter.rs,
join.rs, workflow_run.rs) as executable Lean definitions, followed by
theorems about the embedded operations.

Modelling conventions:
* Rust `f64` payloads are modelled as exact rationals (`Rat`); no theorem
  in this development depends on floating-point rounding, NaN or infinity.
* Artifact files are modelled as the list of JSON values written to them,
  one per line, in order; the database and the filesystem are modelled as
  explicit inputs/outputs of the functions that touch them.
* The external regular-expression engine is passed in as an optional
  `String → Bool` matcher (a `none` models a pattern that failed to build).
* Fallible Rust functions returning `anyhow::Result` are modelled with
  `Except String`.
-/

namespace Toolflow

/-- wiki_page.rs: `struct WikiPage`, all fields optional. Field order as in
the source: title, prefixed_title, ns_id, page_id, ns_prefix, wiki. -/
structure WikiPage where
  title : Option String
  prefixed_title : Option String
  ns_id : Option Int
  page_id : Option Int
  ns_prefix : Option String
  wiki : Option String
deriving DecidableEq

/-- Projection of the fifth WikiPage field (the namespace prefix). -/
def wpNsPre : WikiPage → Option String
  | ⟨_, _, _, _, p, _⟩ => p

/-- wiki_page.rs: `impl PartialEq for WikiPage` compares only the `wiki`
and `prefixed_title` fields. -/
def WikiPage.eqRust (a b : WikiPage) : Bool :=
  a.wiki == b.wiki && a.prefixed_title == b.prefixed_title

/-- data_cell.rs: `enum DataCell`. The `Float` payload is modelled as `Rat`. -/
inductive DataCell where
  | PlainText (s : String)
  | WikiPage (wp : Toolflow.WikiPage)
  | Int (i : Int)
  | Float (f : Rat)
  | Blank
deriving DecidableEq

/-- Discriminant of a DataCell variant, as used by `core::mem::discriminant`
in the catch-all arm of the source's `PartialEq` implementation. -/
def DataCell.tag : DataCell → Nat
  | .PlainText _ => 0
  | .WikiPage _ => 1
  | .Int _ => 2
  | .Float _ => 3
  | .Blank => 4

/-- data_cell.rs: `impl PartialEq for DataCell`. Same-variant payloads are
compared (WikiPage equality is the restricted one); any other pair falls
through to discriminant comparison, so `Blank == Blank` is true and
cross-variant comparisons are false. -/
def DataCell.eqRust : DataCell → DataCell → Bool
  | .PlainText l, .PlainText r => l == r
  | .WikiPage l, .WikiPage r => l.eqRust r
  | .Int l, .Int r => l == r
  | .Float l, .Float r => l == r
  | l, r => l.tag == r.tag

/-- Code-point comparison of strings as character lists. Rust compares
strings byte-wise in UTF-8, which coincides with code-point order. -/
def charListCmp : List Char → List Char → Ordering
  | [], [] => .eq
  | [], _ :: _ => .lt
  | _ :: _, [] => .gt
  | a :: as, b :: bs =>
    if a.toNat < b.toNat then .lt
    else if b.toNat < a.toNat then .gt
    else charListCmp as bs

/-- String comparison used to model Rust's `Ord for str`. -/
def strCmp (a b : String) : Ordering := charListCmp a.data b.data

/-- data_cell.rs: `impl PartialOrd for DataCell`. Blank is minimal, like
kinds compare naturally, Int/Float cross-compare via promotion (exact in
the rational model), all other cross-kind pairs are incomparable. -/
def DataCell.partialCmp : DataCell → DataCell → Option Ordering
  | .Blank, .Blank => some .eq
  | .Blank, _ => some .lt
  | _, .Blank => some .gt
  | .PlainText t1, .PlainText t2 => some (strCmp t1 t2)
  | .Int i1, .Int i2 => some (compare i1 i2)
  | .Int i, .Float f => some (compare (i : Rat) f)
  | .Float f, .Int i => some (compare f (i : Rat))
  | .Float f1, .Float f2 => some (compare f1 f2)
  | _, _ => none

/-- Rust `a < b` via `PartialOrd`: `partial_cmp` is `Some(Less)`. -/
def DataCell.ltRust (a b : DataCell) : Bool := a.partialCmp b == some .lt

/-- Rust `a > b` via `PartialOrd`: `partial_cmp` is `Some(Greater)`. -/
def DataCell.gtRust (a b : DataCell) : Bool := a.partialCmp b == some .gt

/-- Rust `a <= b` via `PartialOrd`: `partial_cmp` is `Some(Less | Equal)`. -/
def DataCell.leRust (a b : DataCell) : Bool :=
  a.partialCmp b == some .lt || a.partialCmp b == some .eq

/-- Rust `a >= b` via `PartialOrd`: `partial_cmp` is `Some(Greater | Equal)`. -/
def DataCell.geRust (a b : DataCell) : Bool :=
  a.partialCmp b == some .gt || a.partialCmp b == some .eq

/-- data_cell.rs: `DataCell::as_key`, the canonical string of a cell. -/
def DataCell.as_key : DataCell → String
  | .PlainText s => s
  | .WikiPage wp =>
    let blank := ""
    let title := wp.title.getD blank
    let nsp := (wpNsPre wp).getD blank
    let fallback := nsp ++ ":" ++ title
    let fullname := wp.prefixed_title.getD fallback
    let wiki := wp.wiki.getD blank
    wiki ++ "::" ++ fullname
  | .Int i => toString i
  | .Float f => toString f
  | .Blank => ""

/-- data_cell.rs: `DataCell::to_sub_key`. Reduces a WikiPage cell to the
plain cell holding the named field; every miss (non-WikiPage cell, no
subkey, unknown subkey name, absent field) yields Blank. The Rust `match`
on the subkey string is modelled as the equivalent chain of equality
tests. -/
def DataCell.to_sub_key (c : DataCell) (subkey : Option String) : DataCell :=
  match c with
  | .WikiPage wp =>
    match subkey with
    | some sk =>
      (if sk = "title" then wp.title.map DataCell.PlainText
       else if sk = "prefixed_title" then wp.prefixed_title.map DataCell.PlainText
       else if sk = "ns_prefix" then (wpNsPre wp).map DataCell.PlainText
       else if sk = "wiki" then wp.wiki.map DataCell.PlainText
       else if sk = "ns_id" then wp.ns_id.map DataCell.Int
       else if sk = "page_id" then wp.page_id.map DataCell.Int
       else none).getD DataCell.Blank
    | none => DataCell.Blank
  | _ => DataCell.Blank

/-- The i64 type of the source, modelled as unbounded integers (the claims
settled here never exercise i64 overflow). -/
abbrev I64 := Int

/-- The capture group `Q\d+` of `RE_WIKIDATA_ITEM`, anchored at the end of
the string. -/
def reMatchCapture : List Char → Option String
  | 'Q' :: ds =>
    if !ds.isEmpty && ds.all Char.isDigit then some (String.mk ('Q' :: ds)) else none
  | _ => none

/-- `://www.wikidata.org/entity/` with the pattern's unescaped `.` as a
wildcard character, then the capture group. -/
def reMatchTail : List Char → Option String
  | ':' :: '/' :: '/' :: 'w' :: 'w' :: 'w' :: _ :: 'w' :: 'i' :: 'k' :: 'i' :: 'd' :: 'a' :: 't' :: 'a' :: _ :: 'o' :: 'r' :: 'g' :: '/' :: 'e' :: 'n' :: 't' :: 'i' :: 't' :: 'y' :: '/' :: cap => reMatchCapture cap
  | _ => none

/-- data_cell.rs line 11-13: the `RE_WIKIDATA_ITEM` regular expression
`^https?://www.wikidata.org/entity/(Q\d+)$`, compiled to a direct matcher:
`^http`, an optional `s`, then the tail. Returns the first (and only)
capture group on a match. -/
def reWikidataItemCapture (url : String) : Option String :=
  match url.data with
  | 'h' :: 't' :: 't' :: 'p' :: 's' :: rest => reMatchTail rest
  | 'h' :: 't' :: 't' :: 'p' :: rest => reMatchTail rest
  | _ => none

/-- data_cell.rs: `DataCell::entity_from_url`. Applies `RE_WIKIDATA_ITEM`
and maps the first capture to `(namespace id, page title)`; the namespace
is 0 for a leading `Q` and 120 for a leading `P` (an arm the regular
expression can never feed, kept faithful to the source). -/
def DataCell.entity_from_url (url : String) : Option (I64 × String) :=
  match reWikidataItemCapture url with
  | some title =>
    match title.data.head? with
    | some 'Q' => some ((0 : I64), title)
    | some 'P' => some ((120 : I64), title)
    | _ => none
  | none => none

/-- data_cell.rs: the `entity_url` arm of `DataCell::from_value` for a
WikiPage column: on a regex match, set ns_id, title and prefixed_title of
the column's default WikiPage; otherwise leave it unchanged. -/
def applyEntityUrl (wp : WikiPage) (s : String) : WikiPage :=
  match DataCell.entity_from_url s with
  | some (nsid, title) =>
    { wp with ns_id := some nsid, title := some title, prefixed_title := some title }
  | none => wp

/-- wiki_page.rs: `WikiPage::new_wikidata_item`: the column-level default
WikiPage of a wikidata item column. -/
def WikiPage.new_wikidata_item : WikiPage :=
  ⟨none, none, some 0, none, none, some "wikidatawiki"⟩

/-- data_header.rs: `enum ColumnHeaderType`. -/
inductive ColumnHeaderType where
  | PlainText
  | WikiPage (wp : Toolflow.WikiPage)
  | Int
  | Float
deriving DecidableEq

/-- data_header.rs: `struct ColumnHeader`. -/
structure ColumnHeader where
  name : String
  kind : ColumnHeaderType
deriving DecidableEq

/-- data_header.rs: `struct DataHeader`. -/
structure DataHeader where
  columns : List ColumnHeader
deriving DecidableEq

/-- data_header.rs: `DataHeader::get_col_num`, first column with the name. -/
def DataHeader.get_col_num (h : DataHeader) (key : String) : Option Nat :=
  ((h.columns.enum.filter (fun p => p.2.name == key)).map (fun p => p.1)).head?

/-- data_header.rs: `DataHeader::add_header` appends the other header's
columns. -/
def DataHeader.add_header (h other : DataHeader) : DataHeader :=
  ⟨h.columns ++ other.columns⟩

/-- filter.rs: the column lookup shared by Filter, FilterPetScan and
FilterSort (`header().columns.iter().enumerate().find(name==key)`). -/
def columnFind (hdr : DataHeader) (key : String) : Option Nat :=
  (hdr.columns.enum.find? (fun p => p.2.name == key)).map (fun p => p.1)

/-- A data row: the parsed cell vector of one artifact line. -/
abbrev Row := List DataCell

/-- The JSON values this program writes to artifact files: a data row
(serialised as an array) or a header (serialised as an object). Mirrors
the only two shapes ever passed to `DataFile::write_json_row`. -/
inductive JsonValue where
  | arr (cells : Row)
  | obj (header : DataHeader)
deriving DecidableEq

/-- data_file.rs: the writer side of `DataFile`: the lines written so far
and `row_counter`. -/
structure DataFileM where
  lines : List JsonValue
  row_counter : Nat
deriving DecidableEq

/-- A fresh output file: nothing written yet. -/
def DataFileM.empty : DataFileM := ⟨[], 0⟩

/-- data_file.rs: `DataFile::write_json_row`. A value that is an empty
array is suppressed (not written, not counted); anything else is appended
as one line and bumps `row_counter`. -/
def DataFileM.write_json_row (df : DataFileM) (v : JsonValue) : DataFileM :=
  match v with
  | .arr a =>
    if a.isEmpty then df
    else ⟨df.lines ++ [v], df.row_counter + 1⟩
  | .obj _ => ⟨df.lines ++ [v], df.row_counter + 1⟩

/-- data_file.rs: `struct DataFileDetails` (the uuid is irrelevant to the
claims and modelled as the empty string). -/
structure DataFileDetails where
  uuid : String
  rows : Nat
  is_valid : Bool
deriving DecidableEq

/-- data_file.rs: `DataFile::details`: reports `row_counter` as `rows`. -/
def DataFileM.details (df : DataFileM) : DataFileDetails :=
  ⟨"", df.row_counter, true⟩

/-- The data rows of a written artifact: the payloads of its array lines. -/
def DataFileM.outRows (df : DataFileM) : List Row :=
  df.lines.filterMap (fun l => match l with | .arr r => some r | .obj _ => none)

/-- The number of non-header lines of a written artifact (the count of its
array lines; every written line is textually non-empty). -/
def DataFileM.dataLineCount (df : DataFileM) : Nat :=
  (df.lines.filter (fun l => match l with | .arr _ => true | .obj _ => false)).length

/-- Modelled from the spec: the run loop persists `DataFileDetails.rows`
verbatim into the `rows` column of the inserted `file` table row (spec
§4.6 and §6; the inserting code itself is not part of src/). -/
def persistedRowsValue (d : DataFileDetails) : Nat := d.rows

/-- filter.rs: `enum FilterOperator`. -/
inductive FilterOperator where
  | Equal
  | Unequal
  | LargerThan
  | SmallerThan
  | LargerOrEqualThan
  | SmallerOrEqualThan
  | Regexp
deriving DecidableEq

/-- filter.rs: `struct Filter`. -/
structure Filter where
  key : String
  subkey : Option String
  operator : FilterOperator
  value : String
  remove_matching : Bool
deriving DecidableEq

/-- Digit-string value, used by the integer/float parsing models. -/
def digitsVal (l : List Char) : Option Nat :=
  if !l.isEmpty && l.all Char.isDigit then
    some (l.foldl (fun a c => a * 10 + (c.toNat - 48)) 0)
  else none

/-- Models `str::parse::<i64>().unwrap_or(0)` from filter.rs: an optional
sign followed by digits, within the i64 range; anything else parses to 0. -/
def parseI64OrZero (s : String) : Int :=
  let core : Option Int :=
    match s.data with
    | '+' :: rest => (digitsVal rest).map (fun n => (n : Int))
    | '-' :: rest => (digitsVal rest).map (fun n => -(n : Int))
    | l => (digitsVal l).map (fun n => (n : Int))
  match core with
  | some i => if -(2 ^ 63) ≤ i ∧ i ≤ 2 ^ 63 - 1 then i else 0
  | none => 0

/-- Splits a character list at the first dot. -/
def splitAtDot : List Char → List Char × Option (List Char)
  | [] => ([], none)
  | c :: rest =>
    if c = '.' then ([], some rest)
    else
      let p := splitAtDot rest
      (c :: p.1, p.2)

/-- Models `str::parse::<f64>().unwrap_or(0.0)` from filter.rs on plain
decimal notation (optional sign, digits, optional fraction), as an exact
rational; inputs outside that grammar (exponents, infinities, NaN) parse
to 0. No theorem depends on the difference to IEEE-754 rounding. -/
def parseF64OrZero (s : String) : Rat :=
  let unsigned (l : List Char) : Option Rat :=
    let p := splitAtDot l
    match p.2 with
    | none => (digitsVal p.1).map (fun n => (n : Rat))
    | some fr =>
      if p.1.all Char.isDigit && fr.all Char.isDigit && !(p.1.isEmpty && fr.isEmpty) then
        some ((((p.1.foldl (fun a c => a * 10 + (c.toNat - 48)) 0) : Rat)) +
          mkRat ((fr.foldl (fun a c => a * 10 + (c.toNat - 48)) 0 : Nat) : Int) (10 ^ fr.length))
      else none
  let core : Option Rat :=
    match s.data with
    | '+' :: rest => unsigned rest
    | '-' :: rest => (unsigned rest).map (fun q => -q)
    | l => unsigned l
  core.getD 0

/-- filter.rs `Filter::process` loop: extraction of the cell to compare.
The cell at the key column; a WikiPage cell is reduced via `to_sub_key`;
a missing cell (row shorter than the column index) is Blank. -/
def Filter.extractCell (f : Filter) (col_num : Nat) (row : Row) : DataCell :=
  match row.get? col_num with
  | some cell =>
    match cell with
    | .WikiPage _ => cell.to_sub_key f.subkey
    | other => other
  | none => .Blank

/-- The effective regex matcher of a Filter run: the supplied compiled
pattern for the Regexp operator, the always-compilable `"."` pattern
(match any single character, hence any non-empty line-free string) for
every other operator — where it is never consulted. -/
def Filter.effRegex (f : Filter) (rif : Option (String → Bool)) : String → Bool :=
  match f.operator, rif with
  | .Regexp, some r => r
  | _, _ => fun s => !s.isEmpty

/-- filter.rs `Filter::process` loop body: comparator-cell selection and
operator dispatch for one row. The `WikiPage` arm mirrors the source's
"this should never happen" error (and is indeed unreachable, see
`rowMatch_ok`). -/
def Filter.rowMatch (f : Filter) (vre : String → Bool) (col_num : Nat) (row : Row) :
    Except String Bool :=
  let cell := f.extractCell col_num row
  match cell with
  | .WikiPage _ => .error "cell is DataCell::WikiPage somehow, this should never happen"
  | c =>
    let vcell : DataCell :=
      match c with
      | .PlainText _ => .PlainText f.value
      | .Int _ => .Int (parseI64OrZero f.value)
      | .Float _ => .Float (parseF64OrZero f.value)
      | _ => .Blank
    .ok (match f.operator with
      | .Equal => vcell.eqRust c
      | .Unequal => !vcell.eqRust c
      | .LargerThan => vcell.ltRust c
      | .SmallerThan => vcell.gtRust c
      | .LargerOrEqualThan => vcell.leRust c
      | .SmallerOrEqualThan => vcell.geRust c
      | .Regexp => vre c.as_key)

/-- The pure value of `rowMatch` (which never actually errors). -/
def Filter.matchB (f : Filter) (rif : Option (String → Bool)) (col_num : Nat) (row : Row) :
    Bool :=
  ((f.rowMatch (f.effRegex rif) col_num row).toOption).getD false

/-- The total match value of a Filter row: `rowMatch` with the unreachable
WikiPage arm mapped to false (see `rowMatch_eq_pure`). -/
def Filter.matchPure (f : Filter) (vre : String → Bool) (col_num : Nat) (row : Row) :
    Bool :=
  let cell := f.extractCell col_num row
  match cell with
  | .WikiPage _ => false
  | c =>
    let vcell : DataCell :=
      match c with
      | .PlainText _ => .PlainText f.value
      | .Int _ => .Int (parseI64OrZero f.value)
      | .Float _ => .Float (parseF64OrZero f.value)
      | _ => .Blank
    match f.operator with
    | .Equal => vcell.eqRust c
    | .Unequal => !vcell.eqRust c
    | .LargerThan => vcell.ltRust c
    | .SmallerThan => vcell.gtRust c
    | .LargerOrEqualThan => vcell.leRust c
    | .SmallerOrEqualThan => vcell.geRust c
    | .Regexp => vre c.as_key

/-- filter.rs: `Filter::process`. Reads the input artifact `(hdr, rows)`,
fails on an unbuildable Regexp pattern (`rif = none`) or a missing key
column, writes the header, then writes each row whose match result equals
the negation of `remove_matching`. Returns the written output file. -/
def Filter.process (f : Filter) (rif : Option (String → Bool)) (hdr : DataHeader)
    (rows : List Row) : Except String DataFileM :=
  if f.operator == FilterOperator.Regexp && rif.isNone then
    .error ("Invalid regular expression: " ++ f.value)
  else
    match columnFind hdr f.key with
    | none => .error ("File does not have a header column " ++ f.key)
    | some col_num =>
      let df0 := DataFileM.empty.write_json_row (.obj hdr)
      rows.foldlM
        (fun df row => do
          let m ← f.rowMatch (f.effRegex rif) col_num row
          if m = !f.remove_matching then pure (df.write_json_row (.arr row)) else pure df)
        df0

/-- The derived key of a row at a column: the canonical string of the cell
there, or "" when the row is shorter (join.rs `read_row_and_key`, and the
sort key closure of filter.rs `FilterSort::process`). -/
def rowKeyAt (col : Nat) (row : Row) : String :=
  match row.get? col with
  | some cell => cell.as_key
  | none => ""

/-- Code-point `≤` on character lists (used to model Rust's total string
order, with which it coincides, since UTF-8 byte order preserves
code-point order). -/
def charListLe : List Char → List Char → Bool
  | [], _ => true
  | _ :: _, [] => false
  | a :: as, b :: bs =>
    if a.toNat < b.toNat then true
    else if b.toNat < a.toNat then false
    else charListLe as bs

/-- Rust `String` total order as a boolean `≤`. -/
def strLeB (a b : String) : Bool := charListLe a.data b.data

/-- The row order used by `FilterSort`: compare derived keys as strings. -/
def keyLe (col : Nat) (a b : Row) : Prop :=
  strLeB (rowKeyAt col a) (rowKeyAt col b) = true

instance (col : Nat) : DecidableRel (keyLe col) := fun a b => by
  unfold keyLe; infer_instance

/-- Rust `slice::sort_by_cached_key` sorts (key, index) pairs, hence is
stable with respect to the original order; modelled by stable insertion
sort on the key order. -/
def sortedRowsBy (col : Nat) (rows : List Row) : List Row :=
  List.insertionSort (keyLe col) rows

/-- filter.rs: `struct FilterSort`. -/
structure FilterSort where
  key : String
  reverse : Bool
deriving DecidableEq

/-- filter.rs: `FilterSort::process` on the artifact content: locate the
key column, read all rows, sort stably by derived key (missing cells sort
as the empty string), reverse if requested. The output artifact is the
unchanged header followed by the resulting row sequence (written through
the same `write_json_row` path as every operator). -/
def FilterSort.process (fs : FilterSort) (hdr : DataHeader) (rows : List Row) :
    Except String (DataHeader × List Row) :=
  match columnFind hdr fs.key with
  | none => .error ("File does not have a header column " ++ fs.key)
  | some col_num =>
    let sorted := sortedRowsBy col_num rows
    .ok (hdr, if fs.reverse then sorted.reverse else sorted)

/-- The row sequence of a FilterSort result (empty on error). -/
def sortResRows (e : Except String (DataHeader × List Row)) : List Row :=
  match e with
  | .ok p => p.2
  | .error _ => []

-- ___________________________________________________________________________
-- join.rs

/-- One input artifact of a join, with its on-disk size in bytes (used only
for the size-ascending ordering) and its parsed content. -/
structure JFile where
  size : Nat
  header : DataHeader
  rows : List Row
deriving DecidableEq

/-- join.rs: `Join::get_files_with_metadata`. Errors on zero inputs
(`NoInputs`) and on exactly one input (`SingleInput`); otherwise returns
the files sorted by file size, smallest first (Rust `sort_by_key` is
stable; modelled by stable insertion sort). -/
def getFilesWithMetadata (files : List JFile) : Except String (List JFile) :=
  if files.isEmpty then .error "No UUIDs given to inner_join_on_key"
  else if files.length == 1 then .error "Only one UUID given to inner_join_on_key"
  else .ok (List.insertionSort (fun a b => a.size ≤ b.size) files)

/-- Replace the element at an index (identity when out of range). -/
def modifyAt (f : α → α) : Nat → List α → List α
  | _, [] => []
  | 0, x :: xs => f x :: xs
  | n + 1, x :: xs => x :: modifyAt f n xs

/-- First value bound to a key in an association list. -/
def lookupIdx (l : List (String × Nat)) (k : String) : Option Nat :=
  (l.find? (fun p => p.1 == k)).map (fun p => p.2)

/-- Count bound to a key in an association list, zero when absent. -/
def lookupCount (l : List (String × Nat)) (k : String) : Nat :=
  ((l.find? (fun p => p.1 == k)).map (fun p => p.2)).getD 0

/-- `*keys_found.entry(key).or_insert(0) += 1` on the association-list
model of the HashMap (entry order is first-seen; the Rust iteration order
is unspecified, and no claim depends on it). -/
def bumpKey : List (String × Nat) → String → List (String × Nat)
  | [], k => [(k, 1)]
  | (k', n) :: rest, k =>
    if k' = k then (k', n + 1) :: rest else (k', n) :: bumpKey rest k

/-- data_file.rs: `DataFile::key2row` row loop, carrying the row number:
every row must have a cell at the key column (`None value found`), and a
repeated derived key is a `Duplicate key` error. -/
def key2rowAux (col : Nat) : Nat → List Row → List (String × Nat) →
    Except String (List (String × Nat))
  | _, [], acc => .ok acc
  | i, row :: rest, acc =>
    match row.get? col with
    | none => .error "None value found for key in data row"
    | some cell =>
      let cell_key := cell.as_key
      if (acc.find? (fun q => q.1 == cell_key)).isSome then .error "Duplicate key in data row"
      else key2rowAux col (i + 1) rest (acc ++ [(cell_key, i)])

/-- data_file.rs: `DataFile::key2row`. -/
def key2row (hdr : DataHeader) (rows : List Row) (key : String) :
    Except String (List (String × Nat)) :=
  match hdr.get_col_num key with
  | none => .error ("No column named " ++ key)
  | some col => key2rowAux col 0 rows []

/-- The in-memory state of `Join::inner_join_on_key` while streaming the
non-base files: the growing base header, the base rows being extended in
place, and the `keys_found` counters. -/
structure JoinState where
  mainHeader : DataHeader
  mainRows : List Row
  keysFound : List (String × Nat)
deriving DecidableEq

/-- join.rs `Join::inner_join_on_key` inner row loop body: derive the key
(join.rs `read_row_and_key`), skip empty rows and empty keys, skip keys
absent from the base file; otherwise count the key and append the row's
remaining cells (key column removed) to the matching base row. -/
def joinRowStep (k2r : List (String × Nat)) (col : Nat) (st : JoinState) (row : Row) :
    JoinState :=
  if row.isEmpty || (rowKeyAt col row).isEmpty then st
  else
    match lookupIdx k2r (rowKeyAt col row) with
    | none => st
    | some row_id =>
      ⟨st.mainHeader, modifyAt (fun r => r ++ row.eraseIdx col) row_id st.mainRows,
        bumpKey st.keysFound (rowKeyAt col row)⟩

/-- join.rs `Join::inner_join_on_key` per-file loop: locate the key column
in the file's own header, remove it from the appended header, extend the
base header, then stream the file's rows. -/
def joinFiles (k2r : List (String × Nat)) (key : String) :
    List JFile → JoinState → Except String JoinState
  | [], st => .ok st
  | file :: rest, st =>
    match file.header.get_col_num key with
    | none => .error ("No key " ++ key ++ " in file")
    | some col =>
      let appended : DataHeader := ⟨file.header.columns.eraseIdx col⟩
      let st' : JoinState :=
        ⟨st.mainHeader.add_header appended, st.mainRows, st.keysFound⟩
      joinFiles k2r key rest (file.rows.foldl (joinRowStep k2r col) st')

/-- join.rs `Join::inner_join_on_key` output loop: for each key joined by
every non-base input, look up its base row index and emit the (extended)
base row; lookup misses are skipped. -/
def joinEmit (k2r : List (String × Nat)) (mainRows : List Row) :
    List String → DataFileM → DataFileM
  | [], out => out
  | k :: rest, out =>
    match lookupIdx k2r k with
    | none => joinEmit k2r mainRows rest out
    | some row_id =>
      match mainRows.get? row_id with
      | none => joinEmit k2r mainRows rest out
      | some row => joinEmit k2r mainRows rest (out.write_json_row (.arr row))

/-- join.rs: `Join::inner_join_on_key`. -/
def inner_join_on_key (files : List JFile) (key : String) : Except String DataFileM := do
  let sorted ← getFilesWithMetadata files
  match sorted with
  | [] => .error "inner_join_on_key: no files"
  | main :: data_files => do
    let k2r ← key2row main.header main.rows key
    let st ← joinFiles k2r key data_files ⟨main.header, main.rows, []⟩
    let number_of_files := data_files.length
    let keys_in_all_files :=
      (st.keysFound.filter (fun p => p.2 == number_of_files)).map (fun p => p.1)
    let out0 := DataFileM.empty.write_json_row (.obj st.mainHeader)
    pure (joinEmit k2r st.mainRows keys_in_all_files out0)

/-- join.rs `Join::merge_unique` inner row loop: emit each row whose
derived key is non-empty and unseen; record seen keys. -/
def mergeRows (col : Nat) : List Row → DataFileM → List String → DataFileM × List String
  | [], out, had => (out, had)
  | row :: rest, out, had =>
    if row.isEmpty || (rowKeyAt col row).isEmpty || had.contains (rowKeyAt col row) then
      mergeRows col rest out had
    else mergeRows col rest (out.write_json_row (.arr row)) (had ++ [rowKeyAt col row])

/-- join.rs `Join::merge_unique` per-file loop: the first file fixes the
header (written to the output); later files must match it exactly; the key
column is located in the fixed header. -/
def mergeFiles (key : String) :
    List JFile → Option DataHeader → DataFileM → List String → Except String DataFileM
  | [], _, out, _ => .ok out
  | file :: rest, nh, out, had =>
    match nh with
    | none =>
      let nh' := file.header
      let out' := out.write_json_row (.obj nh')
      match nh'.get_col_num key with
      | none => .error ("No key " ++ key ++ " in file")
      | some col =>
        let p := mergeRows col file.rows out' had
        mergeFiles key rest (some nh') p.1 p.2
    | some h =>
      if h = file.header then
        match h.get_col_num key with
        | none => .error ("No key " ++ key ++ " in file")
        | some col =>
          let p := mergeRows col file.rows out had
          mergeFiles key rest (some h) p.1 p.2
      else .error "File has a different header than first file"

/-- join.rs: `Join::merge_unique`. -/
def merge_unique (files : List JFile) (key : String) : Except String DataFileM := do
  let sorted ← getFilesWithMetadata files
  mergeFiles key sorted none DataFileM.empty []

/-- The key column index of an input artifact of a join. -/
def JFile.keyColumn (f : JFile) (key : String) : Option Nat :=
  f.header.get_col_num key

/-- The derived keys of all rows of an input artifact (empty when the key
column is absent). -/
def JFile.fileKeys (f : JFile) (key : String) : List String :=
  match f.keyColumn key with
  | some c => f.rows.map (rowKeyAt c)
  | none => []

/-- The derived keys of the data rows of a join output, read at the base
(smallest) file's key column. -/
def joinOutputKeys (files : List JFile) (key : String) (d : DataFileM) : List String :=
  match getFilesWithMetadata files with
  | .ok (main :: _) =>
    match main.keyColumn key with
    | some c => d.outRows.map (rowKeyAt c)
    | none => []
  | _ => []

/-- The output artifact of an operator result, empty on error. -/
def resDataFile (e : Except String DataFileM) : DataFileM :=
  match e with
  | .ok d => d
  | .error _ => DataFileM.empty

/-- The data rows of an operator result, empty on error. -/
def resOutRows (e : Except String DataFileM) : List Row :=
  match e with
  | .ok d => d.outRows
  | .error _ => []

/-- The reported `DataFileDetails.rows` of an operator result, 0 on error. -/
def resReportedRows (e : Except String DataFileM) : Nat :=
  match e with
  | .ok d => d.details.rows
  | .error _ => 0

/-- The non-header line count of an operator result, 0 on error. -/
def resDataLineCount (e : Except String DataFileM) : Nat :=
  match e with
  | .ok d => d.dataLineCount
  | .error _ => 0

-- ___________________________________________________________________________
-- workflow_run.rs

/-- workflow_run.rs: `enum WorkflowNodeStatusValue`. -/
inductive WorkflowNodeStatusValue where
  | WAITING
  | RUNNING
  | DONE
  | FAILED
  | CANCEL
deriving DecidableEq

/-- workflow_run.rs: `struct WorkflowNodeStatus`. -/
structure WorkflowNodeStatus where
  node_id : Nat
  status : WorkflowNodeStatusValue
  uuid : String
  is_output_node : Bool
  error : Option String
deriving DecidableEq

/-- workflow_run.rs: `WorkflowNodeStatus::new`: WAITING, empty uuid. -/
def WorkflowNodeStatus.new (node_id : Nat) : WorkflowNodeStatus :=
  ⟨node_id, .WAITING, "", false, none⟩

/-- workflow_run.rs: `WorkflowNodeStatus::is_done`. -/
def WorkflowNodeStatus.is_done (ns : WorkflowNodeStatus) : Bool :=
  ns.status == .DONE

/-- workflow_run.rs: `WorkflowNodeStatus::set_status`. -/
def WorkflowNodeStatus.set_status (ns : WorkflowNodeStatus)
    (status : WorkflowNodeStatusValue) (error : Option String) : WorkflowNodeStatus :=
  ⟨ns.node_id, status, ns.uuid, ns.is_output_node, error⟩

/-- workflow.rs: `struct WorkflowEdge`. -/
structure WorkflowEdge where
  source_node : Nat
  target_node : Nat
  target_slot : Nat
deriving DecidableEq

/-- workflow_run.rs: the per-run state `load_status` operates on: the
node-status vector and the workflow's edges. -/
structure WorkflowRunM where
  node_status : List WorkflowNodeStatus
  edges : List WorkflowEdge
deriving DecidableEq

/-- workflow_run.rs: `WorkflowRun::new` for a workflow with nodes
`0..numNodes`: all nodes WAITING, with `is_output_node` set on nodes that
are no edge's source. -/
def WorkflowRunM.new (numNodes : Nat) (edges : List WorkflowEdge) : WorkflowRunM :=
  let node_ids := List.range numNodes
  let output_node_ids :=
    node_ids.filter (fun id => !(edges.any (fun e => e.source_node == id)))
  let ns := node_ids.map WorkflowNodeStatus.new
  let ns :=
    output_node_ids.foldl
      (fun l id => modifyAt (fun x => ⟨x.node_id, x.status, x.uuid, true, x.error⟩) id l) ns
  ⟨ns, edges⟩

/-- workflow_run.rs `load_status` marking step for one `file` table row:
the first node-status entry with the row's node id gets the row's uuid and
status DONE; a row without a matching node is an error. -/
def setFirstMatch (node_id : Nat) (uuid : String) :
    List WorkflowNodeStatus → Option (List WorkflowNodeStatus)
  | [] => none
  | ns :: rest =>
    if ns.node_id == node_id then
      some ((WorkflowNodeStatus.set_status ⟨ns.node_id, ns.status, uuid, ns.is_output_node, ns.error⟩ .DONE none) :: rest)
    else (setFirstMatch node_id uuid rest).map (fun l => ns :: l)

/-- workflow_run.rs `load_status`: apply every persisted `file` row
`(uuid, node_id)` of the run to the status vector. -/
def loadMark (run : WorkflowRunM) : List (String × Nat) → Except String WorkflowRunM
  | [] => .ok run
  | (uuid, node_id) :: rest =>
    match setFirstMatch node_id uuid run.node_status with
    | some ns' => loadMark ⟨ns', run.edges⟩ rest
    | none => .error "More nodes in files that in node_status for run"

/-- The node ids of DONE entries. -/
def doneIds (run : WorkflowRunM) : List Nat :=
  (run.node_status.filter (fun ns => ns.is_done)).map (fun ns => ns.node_id)

/-- The node ids of non-DONE entries. -/
def todoIds (run : WorkflowRunM) : List Nat :=
  (run.node_status.filter (fun ns => !ns.is_done)).map (fun ns => ns.node_id)

/-- workflow_run.rs `load_status` loop: targets of edges whose target is
DONE but whose source is not. -/
def redoIds (run : WorkflowRunM) : List Nat :=
  ((run.edges.filter (fun e => (doneIds run).contains e.target_node)).filter
      (fun e => (todoIds run).contains e.source_node)).map (fun e => e.target_node)

/-- workflow_run.rs `load_status` loop body: every entry whose node id is
in `redo` is reset to WAITING with its uuid cleared; the cleared uuids are
collected (in node-status order) for deletion. -/
def demote (run : WorkflowRunM) (redo : List Nat) : WorkflowRunM × List String :=
  (⟨run.node_status.map
      (fun ns =>
        if redo.contains ns.node_id then
          ⟨ns.node_id, .WAITING, "", ns.is_output_node, none⟩
        else ns),
    run.edges⟩,
   ((run.node_status.filter (fun ns => redo.contains ns.node_id)).map (fun ns => ns.uuid)))

/-- workflow_run.rs `load_status` reconciliation loop, with explicit fuel.
One iteration demotes the current `redo` set; the loop stops at the
fixpoint. Each non-final iteration demotes at least one DONE node, so
`node_status.length` fuel always reaches the fixpoint (see
`redoIds_loadLoop_of_fuel`). -/
def loadLoop : Nat → WorkflowRunM → List String → WorkflowRunM × List String
  | 0, run, removed => (run, removed)
  | fuel + 1, run, removed =>
    let redo := redoIds run
    if redo.isEmpty then (run, removed)
    else
      let p := demote run redo
      loadLoop fuel p.1 (removed ++ p.2)

/-- workflow_run.rs: `WorkflowRun::load_status`, with the `file` table
rows of the run supplied as input and the uuids whose files and table rows
are deleted returned alongside the reconciled run. -/
def load_status (run : WorkflowRunM) (fileRows : List (String × Nat)) :
    Except String (WorkflowRunM × List String) := do
  let run' ← loadMark run fileRows
  pure (loadLoop run'.node_status.length run' [])

/-- A `file` table row exists for the node. -/
def hasFileRow (fileRows : List (String × Nat)) (i : Nat) : Prop :=
  i ∈ fileRows.map Prod.snd

/-- `a` is a (strict) ancestor of `b` in the edge graph. -/
def isAncestor (edges : List WorkflowEdge) (a b : Nat) : Prop :=
  Relation.TransGen (fun x y => ∃ e ∈ edges, e.source_node = x ∧ e.target_node = y) a b

/-- The status of node `i` (FAILED as an out-of-range default, which no
theorem relies on). -/
def statusAt (run : WorkflowRunM) (i : Nat) : WorkflowNodeStatusValue :=
  ((run.node_status.get? i).map (fun ns => ns.status)).getD .FAILED

/-- The recorded artifact uuid of node `i`. -/
def uuidAt (run : WorkflowRunM) (i : Nat) : String :=
  ((run.node_status.get? i).map (fun ns => ns.uuid)).getD ""

/-- The uuid of the persisted `file` row of node `i`. -/
def fileUuidFor (fileRows : List (String × Nat)) (i : Nat) : String :=
  ((fileRows.find? (fun p => p.2 == i)).map (fun p => p.1)).getD ""

/-- Well-formedness the run states of `load_status` maintain: the stored
edges are the workflow's, there are `n` node entries, and the entry at
index `j` carries node id `j` (as `WorkflowRun::new` builds them). -/
def GoodRun (n : Nat) (edges : List WorkflowEdge) (run : WorkflowRunM) : Prop :=
  run.edges = edges ∧ run.node_status.length = n ∧
    ∀ j ns, run.node_status.get? j = some ns → ns.node_id = j

/-- Invariant tying each node entry to the persisted `file` rows: a node is
either DONE carrying its file row's uuid, or WAITING with a cleared uuid
and - if it had a file row - that uuid already collected for removal. -/
def MarkInv (fileRows : List (String × Nat)) (removed : List String)
    (run : WorkflowRunM) : Prop :=
  ∀ j ns, run.node_status.get? j = some ns →
    (ns.status = .DONE ∧ ns.uuid = fileUuidFor fileRows j ∧ hasFileRow fileRows j) ∨
    (ns.status = .WAITING ∧ ns.uuid = "" ∧
      (hasFileRow fileRows j → fileUuidFor fileRows j ∈ removed))

/-- Invariant of the reconciliation loop: a node whose own file row and all
of whose ancestors' file rows are persisted stays DONE. -/
def ClosedDone (fileRows : List (String × Nat)) (edges : List WorkflowEdge)
    (run : WorkflowRunM) : Prop :=
  ∀ j ns, run.node_status.get? j = some ns →
    hasFileRow fileRows j → (∀ a, isAncestor edges a j → hasFileRow fileRows a) →
    ns.status = .DONE

/-- The number of DONE node entries (the loop's termination measure). -/
def countDone (run : WorkflowRunM) : Nat :=
  (run.node_status.filter (fun ns => ns.is_done)).length


-- ___________________________________________________________________________
-- Derived forms used by the theorems

/-- The rows a Filter run writes: those whose match result equals the
negation of `remove_matching`, with empty rows suppressed by
`write_json_row`. -/
def filteredRows (f : Filter) (rif : Option (String → Bool)) (col : Nat)
    (rows : List Row) : List Row :=
  rows.filter (fun r => (f.matchB rif col r == !f.remove_matching) && !r.isEmpty)

/-- The row sequence `merge_unique` emits from a row stream given the set
of already-seen keys: first occurrence of each non-empty key wins. -/
def dedupByKey (col : Nat) : List Row → List String → List Row
  | [], _ => []
  | r :: rs, seen =>
    if r.isEmpty || (rowKeyAt col r).isEmpty || seen.contains (rowKeyAt col r) then
      dedupByKey col rs seen
    else r :: dedupByKey col rs (seen ++ [rowKeyAt col r])

/-- The seen-key set after `merge_unique` streams a row list. -/
def seenAfter (col : Nat) : List Row → List String → List String
  | [], seen => seen
  | r :: rs, seen =>
    if r.isEmpty || (rowKeyAt col r).isEmpty || seen.contains (rowKeyAt col r) then
      seenAfter col rs seen
    else seenAfter col rs (seen ++ [rowKeyAt col r])

-- ___________________________________________________________________________
-- Concrete example inputs used by witnesses and counterexamples

/-- A one-column plain-text header named `k`. -/
def exHdrK : DataHeader := ⟨[⟨"k", ColumnHeaderType.PlainText⟩]⟩

/-- A two-column header: plain-text `k`, integer `v`. -/
def exHdrKV : DataHeader := ⟨[⟨"k", ColumnHeaderType.PlainText⟩, ⟨"v", ColumnHeaderType.Int⟩]⟩

/-- Filter on column `k`, Equal to `"a"`, keeping matches. -/
def exFilterEq : Filter := ⟨"k", none, .Equal, "a", false⟩

/-- Two single-cell rows `"a"` and `"b"`. -/
def exRowsAB : List Row := [[.PlainText "a"], [.PlainText "b"]]

/-- The artifact `exFilterEq` produces from `exHdrK`/`exRowsAB`. -/
def exFilterOut : DataFileM := ⟨[.obj exHdrK, .arr [.PlainText "a"]], 2⟩

/-- The artifact the inverted filter produces from the same input. -/
def exFilterOutRemove : DataFileM := ⟨[.obj exHdrK, .arr [.PlainText "b"]], 2⟩

/-- A WikiPage with every field absent. -/
def exWpEmpty : WikiPage := ⟨none, none, none, none, none, none⟩

/-- Filter by WikiPage subkey `title` with operator Equal. -/
def exFilterSubEq : Filter := ⟨"k", some "title", .Equal, "whatever", false⟩

/-- Filter by WikiPage subkey `title` with operator Unequal. -/
def exFilterSubUn : Filter := ⟨"k", some "title", .Unequal, "whatever", false⟩

/-- FilterSort on column `k`, reversed. -/
def exFsRev : FilterSort := ⟨"k", true⟩

/-- Two rows sharing the derived key `x` but with different second cells. -/
def exRowsDupKey : List Row := [[.PlainText "x", .Int 1], [.PlainText "x", .Int 2]]

/-- Two rows with distinct derived keys `b`, `a`. -/
def exRowsBA : List Row := [[.PlainText "b"], [.PlainText "a"]]

/-- Join input: base file, keys `a`, `b` (size 1). -/
def exJfBase : JFile := ⟨1, exHdrKV, [[.PlainText "a", .Int 1], [.PlainText "b", .Int 2]]⟩

/-- Join input: file with the key `a` twice (size 2). -/
def exJfDupA : JFile := ⟨2, exHdrKV, [[.PlainText "a", .Int 3], [.PlainText "a", .Int 4]]⟩

/-- Join input: file with only the key `b` (size 3). -/
def exJfOnlyB : JFile := ⟨3, exHdrKV, [[.PlainText "b", .Int 5]]⟩

/-- Join input with distinct keys `b`, `c` (size 2). -/
def exJfBC : JFile := ⟨2, exHdrKV, [[.PlainText "b", .Int 3], [.PlainText "c", .Int 4]]⟩

/-- Merge input: single row keyed `x` (size 1). -/
def exMfX1 : JFile := ⟨1, exHdrKV, [[.PlainText "x", .Int 1]]⟩

/-- Merge input: a different row with the same key `x` (size 2). -/
def exMfX2 : JFile := ⟨2, exHdrKV, [[.PlainText "x", .Int 2]]⟩

/-- Merge input: single row keyed `y` (size 2). -/
def exMfY : JFile := ⟨2, exHdrKV, [[.PlainText "y", .Int 2]]⟩

/-- Edges of the three-node chain 0 → 1 → 2. -/
def exChainEdges : List WorkflowEdge := [⟨0, 1, 0⟩, ⟨1, 2, 0⟩]

/-- The run `load_status` yields for the chain 0 → 1 → 2 when only node 1
has a persisted file row: everything WAITING, node 2 is the output node. -/
def exC8Run : WorkflowRunM :=
  ⟨[⟨0, .WAITING, "", false, none⟩, ⟨1, .WAITING, "", false, none⟩,
    ⟨2, .WAITING, "", true, none⟩], exChainEdges⟩

/-- The artifact `merge_unique` produces from `exMfX1`/`exMfY`. -/
def exMergeOut : DataFileM :=
  ⟨[.obj exHdrKV, .arr [.PlainText "x", .Int 1], .arr [.PlainText "y", .Int 2]], 3⟩

/-- The artifact `inner_join_on_key` produces from `exJfBase`/`exJfBC`. -/
def exJoinOut : DataFileM :=
  ⟨[.obj ⟨[⟨"k", ColumnHeaderType.PlainText⟩, ⟨"v", ColumnHeaderType.Int⟩,
      ⟨"v", ColumnHeaderType.Int⟩]⟩,
    .arr [.PlainText "b", .Int 2, .Int 3]], 2⟩

-- ___________________________________________________________________________
-- Derived forms used by the inner-join theorems

/-- The association list `key2row` builds: each row's derived key paired
with its index, starting at `i`. -/
def keyIdx (col : Nat) : Nat → List Row → List (String × Nat)
  | _, [] => []
  | i, r :: rs => (rowKeyAt col r, i) :: keyIdx col (i + 1) rs

/-- The total number of stream rows carrying the key `k`, over a file
list, each file read at its own key column. -/
def sumCounts (key : String) (k : String) : List JFile → Nat
  | [] => 0
  | f :: fs =>
    (match f.header.get_col_num key with
      | some cf => f.rows.countP (fun r => rowKeyAt cf r == k)
      | none => 0) + sumCounts key k fs

/-- Row-list extension: same length, every row only grows at its end
(the in-place `append` mutation of the base rows). -/
def Ext (rs rs' : List Row) : Prop :=
  rs'.length = rs.length ∧
    ∀ j r, rs.get? j = some r → ∃ ext, rs'.get? j = some (r ++ ext)

-- ___________________________________________________________________________
-- ___________________________________________________________________________
-- Theorems
-- ___________________________________________________________________________

/-- An optional PlainText/Int cell with Blank default is no WikiPage. -/
theorem optMap_getD_ne_wp {α : Type} (o : Option α) (g : α → DataCell) (wp : WikiPage)
    (h : ∀ a, g a ≠ .WikiPage wp) : (o.map g).getD .Blank ≠ .WikiPage wp := by
  cases o with
  | none => simp
  | some a => simpa using h a

/-- `to_sub_key` can only produce PlainText, Int or Blank cells. -/
theorem to_sub_key_ne_wp (c : DataCell) (sk : Option String) (wp : WikiPage) :
    c.to_sub_key sk ≠ .WikiPage wp := by
  cases c with
  | WikiPage w =>
    cases sk with
    | none => simp [DataCell.to_sub_key]
    | some s =>
      simp only [DataCell.to_sub_key]
      split_ifs <;>
        first
          | exact optMap_getD_ne_wp _ _ _ (fun a => by simp)
          | simp
  | PlainText s => simp [DataCell.to_sub_key]
  | Int i => simp [DataCell.to_sub_key]
  | Float q => simp [DataCell.to_sub_key]
  | Blank => simp [DataCell.to_sub_key]

/-- The comparison cell of a Filter row is never a WikiPage (the source's
"this should never happen" arm is unreachable). -/
theorem extractCell_ne_wp (f : Filter) (col : Nat) (row : Row) (wp : WikiPage) :
    f.extractCell col row ≠ .WikiPage wp := by
  unfold Filter.extractCell
  cases h : row.get? col with
  | none => simp
  | some cell =>
    cases cell with
    | WikiPage w => exact to_sub_key_ne_wp _ _ _
    | PlainText s => simp
    | Int i => simp
    | Float q => simp
    | Blank => simp

/-- `rowMatch` never errors: it computes `matchPure`. -/
theorem rowMatch_eq_pure (f : Filter) (vre : String → Bool) (col : Nat) (row : Row) :
    f.rowMatch vre col row = .ok (f.matchPure vre col row) := by
  rcases hc : f.extractCell col row with s | wp | i | q | _
  case WikiPage => exact absurd hc (extractCell_ne_wp f col row wp)
  all_goals simp only [Filter.rowMatch, Filter.matchPure, hc]

/-- `matchB` coincides with `matchPure` at the effective regex. -/
theorem matchB_eq_pure (f : Filter) (rif : Option (String → Bool)) (col : Nat)
    (row : Row) :
    f.matchB rif col row = f.matchPure (f.effRegex rif) col row := by
  simp [Filter.matchB, rowMatch_eq_pure, Except.toOption]

/-- `rowMatch` computes `matchB`. -/
theorem rowMatch_eq_matchB (f : Filter) (rif : Option (String → Bool)) (col : Nat)
    (row : Row) :
    f.rowMatch (f.effRegex rif) col row = .ok (f.matchB rif col row) := by
  rw [rowMatch_eq_pure, matchB_eq_pure]

/-- The Filter row loop never errors and writes exactly the filtered rows. -/
theorem filter_fold_ok (f : Filter) (rif : Option (String → Bool)) (col : Nat)
    (rows : List Row) (df0 : DataFileM) :
    (List.foldlM
        (fun df row => do
          let m ← f.rowMatch (f.effRegex rif) col row
          if m = !f.remove_matching then pure (df.write_json_row (.arr row)) else pure df)
        df0 rows : Except String DataFileM)
    = .ok ⟨df0.lines ++ (filteredRows f rif col rows).map .arr,
           df0.row_counter + (filteredRows f rif col rows).length⟩ := by
  induction rows generalizing df0 with
  | nil =>
    simp only [List.foldlM_nil, filteredRows, List.filter_nil, List.map_nil,
      List.append_nil, Nat.add_zero]
    rfl
  | cons r rs ih =>
    rw [List.foldlM_cons]
    have hstep :
        (do
          let m ← f.rowMatch (f.effRegex rif) col r
          if m = !f.remove_matching then pure (df0.write_json_row (.arr r)) else pure df0
          : Except String DataFileM)
        = (if f.matchB rif col r = !f.remove_matching
            then pure (df0.write_json_row (.arr r)) else pure df0) := by
      rw [rowMatch_eq_matchB]
      exact rfl
    rw [hstep]
    by_cases hm : f.matchB rif col r = !f.remove_matching
    · rw [if_pos hm]
      show List.foldlM _ (df0.write_json_row (.arr r)) rs = _
      by_cases he : r.isEmpty
      · have hfil : filteredRows f rif col (r :: rs) = filteredRows f rif col rs := by
          simp [filteredRows, List.filter_cons, he]
        have hw : df0.write_json_row (.arr r) = df0 := by
          cases r
          · rfl
          · exact absurd he (by simp)
        rw [hw, hfil]
        exact ih df0
      · have hfil : filteredRows f rif col (r :: rs) =
            r :: filteredRows f rif col rs := by
          simp [filteredRows, List.filter_cons, he, hm]
        have hw : df0.write_json_row (.arr r) =
            ⟨df0.lines ++ [.arr r], df0.row_counter + 1⟩ := by
          simp only [DataFileM.write_json_row, he]
          rfl
        rw [hw, ih, hfil]
        simp [List.append_assoc]
        omega
    · rw [if_neg hm]
      have hfil : filteredRows f rif col (r :: rs) = filteredRows f rif col rs := by
        simp [filteredRows, List.filter_cons, hm]
      show List.foldlM _ df0 rs = _
      rw [ih, hfil]

/-- Success shape of `Filter.process`: the key column exists and the output
is the header line followed by the filtered rows, with `row_counter`
covering all written lines (header included). -/
theorem process_ok_eq (f : Filter) (rif : Option (String → Bool)) (hdr : DataHeader)
    (rows : List Row) (df : DataFileM) (hok : f.process rif hdr rows = .ok df) :
    ∃ col, columnFind hdr f.key = some col ∧
      df = ⟨.obj hdr :: (filteredRows f rif col rows).map .arr,
            1 + (filteredRows f rif col rows).length⟩ := by
  unfold Filter.process at hok
  by_cases hre : (f.operator == FilterOperator.Regexp && rif.isNone) = true
  · rw [if_pos hre] at hok
    exact absurd hok (by simp)
  · rw [if_neg hre] at hok
    rcases hcol : columnFind hdr f.key with _ | col
    · rw [hcol] at hok
      exact absurd hok (by simp)
    · rw [hcol] at hok
      replace hok :
          (List.foldlM
            (fun df row => do
              let m ← f.rowMatch (f.effRegex rif) col row
              if m = !f.remove_matching then pure (df.write_json_row (.arr row))
              else pure df)
            (DataFileM.empty.write_json_row (.obj hdr)) rows : Except String DataFileM)
          = .ok df := hok
      rw [filter_fold_ok] at hok
      refine ⟨col, rfl, ?_⟩
      have h2 := Except.ok.inj hok
      rw [← h2]
      simp [DataFileM.empty, DataFileM.write_json_row, Nat.add_comm]

/-- `outRows` of a header line followed by row lines. -/
theorem outRows_obj_arr (h : DataHeader) (l : List Row) (n : Nat) :
    (DataFileM.mk (.obj h :: l.map .arr) n).outRows = l := by
  simp only [DataFileM.outRows, List.filterMap_cons]
  induction l with
  | nil => rfl
  | cons x xs ih => simpa [List.filterMap_cons] using ih

/-- The data rows of a Filter output are exactly the filtered input rows. -/
theorem process_outRows (f : Filter) (rif : Option (String → Bool)) (hdr : DataHeader)
    (rows : List Row) (df : DataFileM) (col : Nat)
    (hok : f.process rif hdr rows = .ok df) (hcol : columnFind hdr f.key = some col) :
    df.outRows = filteredRows f rif col rows := by
  obtain ⟨c, hc, hdf⟩ := process_ok_eq f rif hdr rows df hok
  rw [hcol] at hc
  injection hc with hc
  subst hc
  subst hdf
  exact outRows_obj_arr hdr _ _

/-- C1 (corrected): a row of a valid input artifact (no empty rows) is
written to the Filter output iff its match result XOR `remove_matching`
is true — the source keeps a row when `does_match == !remove_matching`. -/
theorem filter_written_iff_xor_true (f : Filter) (rif : Option (String → Bool))
    (hdr : DataHeader) (rows : List Row) (df : DataFileM) (col : Nat)
    (hok : f.process rif hdr rows = .ok df)
    (hcol : columnFind hdr f.key = some col)
    (row : Row) (hrow : row ∈ rows) (hne : row ≠ []) :
    row ∈ df.outRows ↔ xor (f.matchB rif col row) f.remove_matching = true := by
  rw [process_outRows f rif hdr rows df col hok hcol]
  rw [filteredRows, List.mem_filter]
  have hne' : row.isEmpty = false := by
    cases row
    · exact absurd rfl hne
    · rfl
  constructor
  · rintro ⟨-, hp⟩
    rw [hne'] at hp
    simp only [Bool.not_false, Bool.and_true] at hp
    have : f.matchB rif col row = !f.remove_matching := by
      exact beq_iff_eq.mp hp
    rw [this]
    cases f.remove_matching <;> rfl
  · intro hx
    refine ⟨hrow, ?_⟩
    rw [hne']
    have : f.matchB rif col row = !f.remove_matching := by
      rcases hb : f.matchB rif col row <;> rcases hr : f.remove_matching <;>
        rw [hb, hr] at hx <;> first | rfl | exact absurd hx (by decide)
    simp [this]

/-- Witness for C1's theorem at a concrete run: the filter keeps row `a`. -/
theorem filter_written_iff_xor_true_witness :
    exFilterEq.process none exHdrK exRowsAB = .ok exFilterOut ∧
    columnFind exHdrK "k" = some 0 ∧
    [DataCell.PlainText "a"] ∈ exRowsAB ∧ [DataCell.PlainText "a"] ≠ [] ∧
    ([DataCell.PlainText "a"] ∈ exFilterOut.outRows ↔
      xor (exFilterEq.matchB none 0 [DataCell.PlainText "a"]) exFilterEq.remove_matching
        = true) :=
  ⟨rfl, rfl, by decide, by decide,
    filter_written_iff_xor_true exFilterEq none exHdrK exRowsAB exFilterOut 0 rfl rfl
      [DataCell.PlainText "a"] (by decide) (by decide)⟩

/-- Counterexample to C1 as stated: for the Equal filter on value `a` with
`remove_matching = false`, the row `["a"]` is written although its match
XOR `remove_matching` is true, not false. -/
theorem filter_written_iff_xor_false_cex :
    ¬ (([DataCell.PlainText "a"] ∈ resOutRows (exFilterEq.process none exHdrK exRowsAB)) ↔
        xor (exFilterEq.matchB none 0 [DataCell.PlainText "a"]) exFilterEq.remove_matching
          = false) := by
  decide

/-- C7 (confirmed): over a valid input artifact (no empty rows), the keep
and remove runs of the same filter partition the input rows: their outputs
concatenate to a permutation of the input and share no row. -/
theorem filter_duality (key : String) (subkey : Option String) (op : FilterOperator)
    (value : String) (rif : Option (String → Bool)) (hdr : DataHeader) (rows : List Row)
    (d1 d2 : DataFileM)
    (hnil : [] ∉ rows)
    (h1 : Filter.process ⟨key, subkey, op, value, false⟩ rif hdr rows = .ok d1)
    (h2 : Filter.process ⟨key, subkey, op, value, true⟩ rif hdr rows = .ok d2) :
    List.Perm (d1.outRows ++ d2.outRows) rows ∧ ∀ r ∈ d1.outRows, r ∉ d2.outRows := by
  obtain ⟨c1, hc1, hd1⟩ := process_ok_eq _ rif hdr rows d1 h1
  obtain ⟨c2, hc2, hd2⟩ := process_ok_eq _ rif hdr rows d2 h2
  have hcc : columnFind hdr key = some c1 := hc1
  rw [hcc] at hc2
  injection hc2 with hc2
  subst hc2
  have ho1 : d1.outRows = filteredRows ⟨key, subkey, op, value, false⟩ rif c1 rows := by
    subst hd1; exact outRows_obj_arr _ _ _
  have ho2 : d2.outRows = filteredRows ⟨key, subkey, op, value, true⟩ rif c1 rows := by
    subst hd2; exact outRows_obj_arr _ _ _
  have hm : ∀ r : Row,
      Filter.matchB ⟨key, subkey, op, value, true⟩ rif c1 r
        = Filter.matchB ⟨key, subkey, op, value, false⟩ rif c1 r := fun _ => rfl
  have hemp : ∀ r : Row, r ∈ rows → r.isEmpty = false := by
    intro r hr
    cases r with
    | nil => exact absurd hr hnil
    | cons a l => rfl
  have hp1 : filteredRows ⟨key, subkey, op, value, false⟩ rif c1 rows
      = rows.filter (fun r => Filter.matchB ⟨key, subkey, op, value, false⟩ rif c1 r) := by
    apply List.filter_congr
    intro r hr
    simp [hemp r hr]
  have hp2 : filteredRows ⟨key, subkey, op, value, true⟩ rif c1 rows
      = rows.filter (fun r => !Filter.matchB ⟨key, subkey, op, value, false⟩ rif c1 r) := by
    apply List.filter_congr
    intro r hr
    simp [hemp r hr, hm r]
  constructor
  · rw [ho1, ho2, hp1, hp2]
    exact List.filter_append_perm _ rows
  · intro r hr1 hr2
    rw [ho1, hp1, List.mem_filter] at hr1
    rw [ho2, hp2, List.mem_filter] at hr2
    rw [hr1.2] at hr2
    exact absurd hr2.2 (by decide)

/-- Witness for C7's theorem at a concrete run: Equal-"a" filter splits
rows `a`/`b` into complementary outputs. -/
theorem filter_duality_witness :
    ([] ∉ exRowsAB) ∧
    Filter.process ⟨"k", none, .Equal, "a", false⟩ none exHdrK exRowsAB = .ok exFilterOut ∧
    Filter.process ⟨"k", none, .Equal, "a", true⟩ none exHdrK exRowsAB
      = .ok exFilterOutRemove ∧
    (List.Perm (exFilterOut.outRows ++ exFilterOutRemove.outRows) exRowsAB ∧
      ∀ r ∈ exFilterOut.outRows, r ∉ exFilterOutRemove.outRows) :=
  ⟨by decide, rfl, rfl,
    filter_duality "k" none .Equal "a" none exHdrK exRowsAB exFilterOut exFilterOutRemove
      (by decide) rfl rfl⟩

/-- `dataLineCount` of a header line followed by row lines. -/
theorem dataLineCount_obj_arr (h : DataHeader) (l : List Row) (n : Nat) :
    (DataFileM.mk (.obj h :: l.map .arr) n).dataLineCount = l.length := by
  simp only [DataFileM.dataLineCount, List.filter_cons]
  induction l with
  | nil => rfl
  | cons x xs ih => simpa [List.filter_cons] using ih

/-- The writer's `row_counter` always equals the number of lines written. -/
theorem writer_counter_invariant (vs : List JsonValue) (df : DataFileM)
    (h : df.row_counter = df.lines.length) :
    (List.foldl DataFileM.write_json_row df vs).row_counter
      = (List.foldl DataFileM.write_json_row df vs).lines.length := by
  induction vs generalizing df with
  | nil => exact h
  | cons v vs ih =>
    rw [List.foldl_cons]
    refine ih _ ?_
    cases v with
    | arr a =>
      by_cases he : a.isEmpty
      · simp [DataFileM.write_json_row, he, h]
      · simp [DataFileM.write_json_row, he, h]
    | obj hd => simp [DataFileM.write_json_row, h]

/-- C3 (corrected): the reported (and persisted) `rows` of an operator
artifact counts every written line — the header line included — so it is
one more than the number of non-header lines, not equal to it. First
conjunct: the counter invariant of the writer; second: the shape of every
Filter output artifact. -/
theorem rows_reported_counts_header_line :
    (∀ (vs : List JsonValue),
        (List.foldl DataFileM.write_json_row DataFileM.empty vs).details.rows
          = (List.foldl DataFileM.write_json_row DataFileM.empty vs).lines.length) ∧
    (∀ (f : Filter) (rif : Option (String → Bool)) (hdr : DataHeader) (rows : List Row)
        (df : DataFileM), f.process rif hdr rows = .ok df →
        persistedRowsValue df.details = df.dataLineCount + 1 ∧
        df.lines.head? = some (.obj hdr)) := by
  constructor
  · intro vs
    exact writer_counter_invariant vs DataFileM.empty rfl
  · intro f rif hdr rows df hok
    obtain ⟨col, hcol, hdf⟩ := process_ok_eq f rif hdr rows df hok
    subst hdf
    refine ⟨?_, rfl⟩
    rw [dataLineCount_obj_arr]
    simp [persistedRowsValue, DataFileM.details, Nat.add_comm]

/-- Witness for C3's theorem at a concrete run. -/
theorem rows_reported_counts_header_line_witness :
    persistedRowsValue exFilterOut.details = exFilterOut.dataLineCount + 1 ∧
    exFilterOut.lines.head? = some (.obj exHdrK) :=
  rows_reported_counts_header_line.2 exFilterEq none exHdrK exRowsAB exFilterOut rfl

/-- Counterexample to C3 as stated: a Filter output with one data row
reports `rows = 2` (header counted), not the non-header line count 1. -/
theorem rows_equals_data_lines_cex :
    ¬ (resReportedRows (exFilterEq.process none exHdrK exRowsAB)
        = resDataLineCount (exFilterEq.process none exHdrK exRowsAB)) := by
  decide

/-- The match value of a row whose comparison cell is Blank, for every
operator: the comparator is Blank, so Equal holds, Unequal fails, and the
order operators compare `Some(Equal)` against the wanted ordering. -/
theorem matchPure_of_blank (f : Filter) (vre : String → Bool) (col : Nat) (row : Row)
    (hb : f.extractCell col row = .Blank) :
    f.matchPure vre col row
      = (match f.operator with
          | .Equal => true
          | .Unequal => false
          | .LargerThan => false
          | .SmallerThan => false
          | .LargerOrEqualThan => true
          | .SmallerOrEqualThan => true
          | .Regexp => vre "") := by
  cases hop : f.operator <;>
    simp [Filter.matchPure, hb, hop, DataCell.eqRust, DataCell.tag, DataCell.ltRust,
      DataCell.gtRust, DataCell.leRust, DataCell.geRust, DataCell.partialCmp,
      DataCell.as_key] <;>
    decide

/-- C10 (confirmed): whenever the extracted comparison cell is Blank, the
Equal operator counts the row as matching regardless of the configured
value, and Unequal never does; together with the Blank sources named by
the claim: a row shorter than the key column, a WikiPage subkey whose
field is absent, an unknown subkey name, and `to_sub_key` on a
non-WikiPage cell. -/
theorem filter_blank_cell_matching (f : Filter) (rif : Option (String → Bool))
    (col : Nat) (row : Row) (hb : f.extractCell col row = .Blank) :
    (f.operator = .Equal → f.matchB rif col row = true) ∧
    (f.operator = .Unequal → f.matchB rif col row = false) ∧
    (∀ (g : Filter) (c : Nat) (r : Row), r.length ≤ c → g.extractCell c r = .Blank) ∧
    (∀ (wp : WikiPage) (sk : String),
        ((sk = "title" ∧ wp.title = none) ∨ (sk = "prefixed_title" ∧ wp.prefixed_title = none) ∨
         (sk = "ns_prefix" ∧ wpNsPre wp = none) ∨ (sk = "wiki" ∧ wp.wiki = none) ∨
         (sk = "ns_id" ∧ wp.ns_id = none) ∨ (sk = "page_id" ∧ wp.page_id = none)) →
        DataCell.to_sub_key (.WikiPage wp) (some sk) = .Blank) ∧
    (∀ (wp : WikiPage) (sk : String),
        sk ≠ "title" → sk ≠ "prefixed_title" → sk ≠ "ns_prefix" → sk ≠ "wiki" →
        sk ≠ "ns_id" → sk ≠ "page_id" →
        DataCell.to_sub_key (.WikiPage wp) (some sk) = .Blank) ∧
    (∀ (c : DataCell) (sk : Option String), (∀ wp, c ≠ .WikiPage wp) →
        c.to_sub_key sk = .Blank) := by
  refine ⟨?_, ?_, ?_, ?_, ?_, ?_⟩
  · intro hop
    rw [matchB_eq_pure, matchPure_of_blank f _ col row hb, hop]
  · intro hop
    rw [matchB_eq_pure, matchPure_of_blank f _ col row hb, hop]
  · intro g c r h
    have hnone : r.get? c = none := List.get?_eq_none.mpr h
    unfold Filter.extractCell
    rw [hnone]
  · rintro wp sk (⟨rfl, hf⟩ | ⟨rfl, hf⟩ | ⟨rfl, hf⟩ | ⟨rfl, hf⟩ | ⟨rfl, hf⟩ | ⟨rfl, hf⟩) <;>
      simp [DataCell.to_sub_key, hf]
  · intro wp sk h1 h2 h3 h4 h5 h6
    simp [DataCell.to_sub_key, h1, h2, h3, h4, h5, h6]
  · intro c sk h
    cases c with
    | WikiPage w => exact absurd rfl (h w)
    | PlainText s => rfl
    | Int i => rfl
    | Float q => rfl
    | Blank => rfl

/-- Witness for C10's theorem: a WikiPage cell with no `title` under
subkey `title` extracts to Blank; Equal matches, Unequal does not. -/
theorem filter_blank_cell_matching_witness :
    Filter.extractCell exFilterSubEq 0 [DataCell.WikiPage exWpEmpty] = .Blank ∧
    exFilterSubEq.matchB none 0 [DataCell.WikiPage exWpEmpty] = true ∧
    exFilterSubUn.matchB none 0 [DataCell.WikiPage exWpEmpty] = false :=
  ⟨by decide,
   (filter_blank_cell_matching exFilterSubEq none 0 [DataCell.WikiPage exWpEmpty]
      (by decide)).1 rfl,
   (filter_blank_cell_matching exFilterSubUn none 0 [DataCell.WikiPage exWpEmpty]
      (by decide)).2.1 rfl⟩

/-- C9 (confirmed): both `inner_join_on_key` and `merge_unique` reject an
empty input list (NoInputs) and a single input (SingleInput), producing no
output artifact. -/
theorem joins_reject_zero_and_single_inputs (file : JFile) (key : String) :
    inner_join_on_key [] key = .error "No UUIDs given to inner_join_on_key" ∧
    merge_unique [] key = .error "No UUIDs given to inner_join_on_key" ∧
    inner_join_on_key [file] key = .error "Only one UUID given to inner_join_on_key" ∧
    merge_unique [file] key = .error "Only one UUID given to inner_join_on_key" :=
  ⟨rfl, rfl, rfl, rfl⟩

/-- C8/C4 evidence (code bug in `entity_from_url`): a Q entity URL is
parsed and applied (ns_id 0, title and prefixed_title set), but a P entity
URL does not match `RE_WIKIDATA_ITEM` — whose capture group is `(Q\d+)` —
so the `Some('P') => 120` arm is unreachable and the WikiPage is left
unchanged, against the documented `ns_id=120, title="P31"`. -/
theorem entity_url_p_not_parsed :
    DataCell.entity_from_url "https://www.wikidata.org/entity/Q42"
      = some ((0 : I64), "Q42") ∧
    applyEntityUrl WikiPage.new_wikidata_item "https://www.wikidata.org/entity/Q42"
      = ⟨some "Q42", some "Q42", some 0, none, none, some "wikidatawiki"⟩ ∧
    DataCell.entity_from_url "https://www.wikidata.org/entity/P31" = none ∧
    applyEntityUrl WikiPage.new_wikidata_item "https://www.wikidata.org/entity/P31"
      = WikiPage.new_wikidata_item := by
  refine ⟨by decide, by decide, by decide, by decide⟩

-- C5: FilterSort idempotence

theorem charListLe_refl (l : List Char) : charListLe l l = true := by
  induction l with
  | nil => rfl
  | cons a as ih => simp [charListLe, ih]

theorem charListLe_total (a b : List Char) :
    charListLe a b = true ∨ charListLe b a = true := by
  induction a generalizing b with
  | nil => exact Or.inl rfl
  | cons x xs ih =>
    cases b with
    | nil => exact Or.inr rfl
    | cons y ys =>
      simp only [charListLe]
      rcases Nat.lt_trichotomy x.toNat y.toNat with h | h | h
      · left; simp [h]
      · rcases ih ys with h2 | h2
        · left; simp [h, h2]
        · right; simp [h.symm, h2]
      · right; simp [h]

theorem charListLe_trans (a b c : List Char) (h1 : charListLe a b = true)
    (h2 : charListLe b c = true) : charListLe a c = true := by
  induction a generalizing b c with
  | nil => rfl
  | cons x xs ih =>
    cases b with
    | nil => simp [charListLe] at h1
    | cons y ys =>
      cases c with
      | nil => simp [charListLe] at h2
      | cons z zs =>
        simp only [charListLe] at h1 h2 ⊢
        by_cases hxy1 : x.toNat < y.toNat
        · by_cases hyz1 : y.toNat < z.toNat
          · rw [if_pos (by omega)]
          · by_cases hzy : z.toNat < y.toNat
            · rw [if_neg hyz1, if_pos hzy] at h2
              exact absurd h2 (by decide)
            · rw [if_pos (by omega)]
        · by_cases hyx : y.toNat < x.toNat
          · rw [if_neg hxy1, if_pos hyx] at h1
            exact absurd h1 (by decide)
          · rw [if_neg hxy1, if_neg hyx] at h1
            by_cases hyz1 : y.toNat < z.toNat
            · rw [if_pos (by omega)]
            · by_cases hzy : z.toNat < y.toNat
              · rw [if_neg hyz1, if_pos hzy] at h2
                exact absurd h2 (by decide)
              · rw [if_neg hyz1, if_neg hzy] at h2
                rw [if_neg (by omega), if_neg (by omega)]
                exact ih ys zs h1 h2

theorem charListLe_antisymm (a b : List Char) (h1 : charListLe a b = true)
    (h2 : charListLe b a = true) : a = b := by
  induction a generalizing b with
  | nil =>
    cases b with
    | nil => rfl
    | cons y ys => simp [charListLe] at h2
  | cons x xs ih =>
    cases b with
    | nil => simp [charListLe] at h1
    | cons y ys =>
      simp only [charListLe] at h1 h2
      rcases Nat.lt_trichotomy x.toNat y.toNat with h | h | h
      · rw [if_neg (by omega), if_pos h] at h2
        exact absurd h2 (by decide)
      · rw [if_neg (by omega), if_neg (by omega)] at h1 h2
        have hxy : x = y := by
          apply Char.eq_of_val_eq
          apply UInt32.eq_of_toBitVec_eq
          apply BitVec.eq_of_toNat_eq
          exact h
        rw [hxy, ih ys h1 h2]
      · rw [if_neg (by omega), if_pos h] at h1
        exact absurd h1 (by decide)

theorem strLeB_antisymm (a b : String) (h1 : strLeB a b = true)
    (h2 : strLeB b a = true) : a = b :=
  String.ext (charListLe_antisymm a.data b.data h1 h2)

instance keyLeTotal (col : Nat) : IsTotal Row (keyLe col) :=
  ⟨fun a b => charListLe_total (rowKeyAt col a).data (rowKeyAt col b).data⟩

instance keyLeTrans (col : Nat) : IsTrans Row (keyLe col) :=
  ⟨fun _ _ _ h1 h2 => charListLe_trans _ _ _ h1 h2⟩

/-- Two permutations of the same rows, both sorted by derived key, are
equal as soon as the derived keys are pairwise distinct. -/
theorem sorted_perm_nodup_keys_eq (col : Nat) (l1 l2 : List Row)
    (hp : List.Perm l1 l2) (hs1 : List.Sorted (keyLe col) l1)
    (hs2 : List.Sorted (keyLe col) l2)
    (hnd : (l2.map (rowKeyAt col)).Nodup) : l1 = l2 := by
  have hnd1 : (l1.map (rowKeyAt col)).Nodup := ((hp.map _).nodup_iff).mpr hnd
  have hpn1 : List.Pairwise (fun a b => rowKeyAt col a ≠ rowKeyAt col b) l1 :=
    List.pairwise_map.mp hnd1
  have hpn2 : List.Pairwise (fun a b => rowKeyAt col a ≠ rowKeyAt col b) l2 :=
    List.pairwise_map.mp hnd
  have hs1' : List.Sorted (fun a b => keyLe col a b ∧ rowKeyAt col a ≠ rowKeyAt col b) l1 :=
    hs1.and hpn1
  have hs2' : List.Sorted (fun a b => keyLe col a b ∧ rowKeyAt col a ≠ rowKeyAt col b) l2 :=
    hs2.and hpn2
  haveI : IsAntisymm Row (fun a b => keyLe col a b ∧ rowKeyAt col a ≠ rowKeyAt col b) :=
    ⟨fun a b h1 h2 => absurd (strLeB_antisymm _ _ h1.1 h2.1) h1.2⟩
  exact List.eq_of_perm_of_sorted hp hs1' hs2'

/-- Sorting a sorted-by-key row list changes nothing. -/
theorem sortedRowsBy_of_sorted (col : Nat) (rows : List Row)
    (h : List.Sorted (keyLe col) rows) : sortedRowsBy col rows = rows :=
  List.Sorted.insertionSort_eq h

/-- C5 (corrected): FilterSort is idempotent when `reverse` is false, and
also when the input's derived keys are pairwise distinct; the second run
reproduces the first run's output exactly. -/
theorem filtersort_idempotent_amended (fs : FilterSort) (hdr : DataHeader)
    (rows : List Row) (out : DataHeader × List Row) (col : Nat)
    (hcol : columnFind hdr fs.key = some col)
    (hok : fs.process hdr rows = .ok out)
    (hcase : fs.reverse = false ∨ (rows.map (rowKeyAt col)).Nodup) :
    fs.process out.1 out.2 = .ok out := by
  unfold FilterSort.process at hok ⊢
  rw [hcol] at hok
  have hout : out = (hdr, if fs.reverse then (sortedRowsBy col rows).reverse
      else sortedRowsBy col rows) := (Except.ok.inj hok).symm
  subst hout
  rw [hcol]
  have hsorted : List.Sorted (keyLe col) (sortedRowsBy col rows) :=
    List.sorted_insertionSort (keyLe col) rows
  rcases hcase with hrev | hnd
  · rw [hrev]
    simp only [Bool.false_eq_true, if_false]
    rw [sortedRowsBy_of_sorted col (sortedRowsBy col rows) hsorted]
  · cases hrevb : fs.reverse with
    | false =>
      simp only [hrevb, Bool.false_eq_true, if_false]
      rw [sortedRowsBy_of_sorted col (sortedRowsBy col rows) hsorted]
    | true =>
      simp only [hrevb, if_true]
      have hnd2 : ((sortedRowsBy col rows).map (rowKeyAt col)).Nodup :=
        (((List.perm_insertionSort (keyLe col) rows).map _).nodup_iff).mpr hnd
      have hkey : sortedRowsBy col (sortedRowsBy col rows).reverse
          = sortedRowsBy col rows := by
        apply sorted_perm_nodup_keys_eq col _ _ ?_ ?_ ?_ hnd2
        · exact (List.perm_insertionSort _ _).trans
            ((sortedRowsBy col rows).reverse_perm)
        · exact List.sorted_insertionSort _ _
        · exact List.sorted_insertionSort _ _
      rw [hkey]

/-- Witness for C5's theorem at a concrete run: reversed sort of distinct
keys `a`, `b` is idempotent. -/
theorem filtersort_idempotent_amended_witness :
    columnFind exHdrK "k" = some 0 ∧
    exFsRev.process exHdrK exRowsAB = .ok (exHdrK, exRowsBA) ∧
    (exFsRev.reverse = false ∨ (exRowsAB.map (rowKeyAt 0)).Nodup) ∧
    exFsRev.process exHdrK exRowsBA = .ok (exHdrK, exRowsBA) :=
  ⟨rfl, rfl, Or.inr (by decide),
    filtersort_idempotent_amended exFsRev exHdrK exRowsAB (exHdrK, exRowsBA) 0 rfl rfl
      (Or.inr (by decide))⟩

/-- Counterexample to C5 as stated: with `reverse = true` and two rows
sharing the derived key `x`, the second FilterSort run swaps the rows
back, so applying it twice differs from applying it once. -/
theorem filtersort_idempotent_cex :
    sortResRows (exFsRev.process exHdrKV
        (sortResRows (exFsRev.process exHdrKV exRowsDupKey)))
      ≠ sortResRows (exFsRev.process exHdrKV exRowsDupKey) := by
  decide

-- C6: merge_unique

/-- An empty row has the empty derived key at every column. -/
theorem rowKeyAt_nil (col : Nat) : rowKeyAt col ([] : Row) = "" := by
  cases col <;> rfl

/-- The skip condition of the merge row loop, abbreviated. -/
def mergeSkip (col : Nat) (seen : List String) (r : Row) : Bool :=
  r.isEmpty || (rowKeyAt col r).isEmpty || seen.contains (rowKeyAt col r)

theorem dedupByKey_cons (col : Nat) (r : Row) (rs : List Row) (seen : List String) :
    dedupByKey col (r :: rs) seen =
      if mergeSkip col seen r then dedupByKey col rs seen
      else r :: dedupByKey col rs (seen ++ [rowKeyAt col r]) := rfl

theorem seenAfter_cons (col : Nat) (r : Row) (rs : List Row) (seen : List String) :
    seenAfter col (r :: rs) seen =
      if mergeSkip col seen r then seenAfter col rs seen
      else seenAfter col rs (seen ++ [rowKeyAt col r]) := rfl

theorem mergeRows_cons (col : Nat) (r : Row) (rs : List Row) (out : DataFileM)
    (had : List String) :
    mergeRows col (r :: rs) out had =
      if mergeSkip col had r then mergeRows col rs out had
      else mergeRows col rs (out.write_json_row (.arr r)) (had ++ [rowKeyAt col r]) := rfl

/-- The components of a failed skip condition. -/
theorem mergeSkip_false (col : Nat) (seen : List String) (r : Row)
    (hc : ¬ mergeSkip col seen r = true) :
    r.isEmpty = false ∧ (rowKeyAt col r).isEmpty = false ∧
      seen.contains (rowKeyAt col r) = false := by
  have hcf : mergeSkip col seen r = false := Bool.eq_false_iff.mpr hc
  unfold mergeSkip at hcf
  rw [Bool.or_eq_false_iff, Bool.or_eq_false_iff] at hcf
  exact ⟨hcf.1.1, hcf.1.2, hcf.2⟩

/-- `mergeRows` appends exactly the key-deduplicated rows and extends the
seen set accordingly. -/
theorem mergeRows_spec (col : Nat) (rows : List Row) (out : DataFileM)
    (had : List String) :
    mergeRows col rows out had =
      (⟨out.lines ++ (dedupByKey col rows had).map .arr,
        out.row_counter + (dedupByKey col rows had).length⟩,
       seenAfter col rows had) := by
  induction rows generalizing out had with
  | nil => simp [mergeRows, dedupByKey, seenAfter]
  | cons r rs ih =>
    rw [mergeRows_cons, dedupByKey_cons, seenAfter_cons]
    by_cases hc : mergeSkip col had r = true
    · rw [if_pos hc, if_pos hc, if_pos hc]
      exact ih out had
    · obtain ⟨hre, -, -⟩ := mergeSkip_false col had r hc
      rw [if_neg hc, if_neg hc, if_neg hc]
      rw [ih]
      have hw : out.write_json_row (.arr r)
          = ⟨out.lines ++ [.arr r], out.row_counter + 1⟩ := by
        simp only [DataFileM.write_json_row, hre]
        rfl
      rw [hw]
      simp [List.append_assoc]
      omega

/-- Every emitted row comes from the stream. -/
theorem dedupByKey_subset (col : Nat) (rows : List Row) (seen : List String)
    (r : Row) (hr : r ∈ dedupByKey col rows seen) : r ∈ rows := by
  induction rows generalizing seen with
  | nil => simp [dedupByKey] at hr
  | cons r0 rs ih =>
    rw [dedupByKey_cons] at hr
    by_cases hc : mergeSkip col seen r0 = true
    · rw [if_pos hc] at hr
      exact List.mem_cons_of_mem r0 (ih _ hr)
    · rw [if_neg hc] at hr
      rcases List.mem_cons.mp hr with h | h
      · exact h ▸ List.mem_cons_self r0 rs
      · exact List.mem_cons_of_mem r0 (ih _ h)

/-- The seen set only grows. -/
theorem seenAfter_mono (col : Nat) (rows : List Row) (seen : List String)
    (k : String) (hk : k ∈ seen) : k ∈ seenAfter col rows seen := by
  induction rows generalizing seen with
  | nil => exact hk
  | cons r0 rs ih =>
    rw [seenAfter_cons]
    by_cases hc : mergeSkip col seen r0 = true
    · rw [if_pos hc]
      exact ih _ hk
    · rw [if_neg hc]
      exact ih _ (List.mem_append_left _ hk)

/-- After the stream, every non-empty key of the stream has been seen. -/
theorem seenAfter_covers (col : Nat) (rows : List Row) (seen : List String)
    (r : Row) (hr : r ∈ rows) (hk : rowKeyAt col r ≠ "") :
    rowKeyAt col r ∈ seenAfter col rows seen := by
  induction rows generalizing seen with
  | nil => simp at hr
  | cons r0 rs ih =>
    rw [seenAfter_cons]
    by_cases hc : mergeSkip col seen r0 = true
    · rw [if_pos hc]
      rcases List.mem_cons.mp hr with h | h
      · subst h
        unfold mergeSkip at hc
        rcases Bool.or_eq_true_iff.mp hc with h1 | h1
        · rcases Bool.or_eq_true_iff.mp h1 with h2 | h2
          · exfalso
            apply hk
            have hnil : r = [] := List.isEmpty_iff.mp h2
            rw [hnil, rowKeyAt_nil]
          · exact absurd (by simpa [String.isEmpty_iff] using h2) hk
        · exact seenAfter_mono col rs seen _ (by simpa using h1)
      · exact ih _ h
    · rw [if_neg hc]
      rcases List.mem_cons.mp hr with h | h
      · subst h
        exact seenAfter_mono col rs _ _
          (List.mem_append_right _ (List.mem_singleton.mpr rfl))
      · exact ih _ h

/-- Everything seen after the stream was seen before or is the key of an
emitted row. -/
theorem seenAfter_source (col : Nat) (rows : List Row) (seen : List String)
    (k : String) (hk : k ∈ seenAfter col rows seen) :
    k ∈ seen ∨ ∃ r ∈ dedupByKey col rows seen, rowKeyAt col r = k := by
  induction rows generalizing seen with
  | nil => exact Or.inl hk
  | cons r0 rs ih =>
    rw [seenAfter_cons] at hk
    rw [dedupByKey_cons]
    by_cases hc : mergeSkip col seen r0 = true
    · rw [if_pos hc] at hk
      rw [if_pos hc]
      exact ih _ hk
    · rw [if_neg hc] at hk
      rw [if_neg hc]
      rcases ih _ hk with h | ⟨r, hr, hrk⟩
      · rcases List.mem_append.mp h with h2 | h2
        · exact Or.inl h2
        · refine Or.inr ⟨r0, List.mem_cons_self _ _, ?_⟩
          rw [List.mem_singleton.mp h2]
      · exact Or.inr ⟨r, List.mem_cons_of_mem _ hr, hrk⟩

/-- The emitted rows have pairwise-distinct keys, none previously seen. -/
theorem dedupByKey_nodup (col : Nat) (rows : List Row) (seen : List String) :
    ((dedupByKey col rows seen).map (rowKeyAt col)).Nodup ∧
    (∀ r ∈ dedupByKey col rows seen, rowKeyAt col r ∉ seen) := by
  induction rows generalizing seen with
  | nil => exact ⟨List.nodup_nil, by simp [dedupByKey]⟩
  | cons r0 rs ih =>
    rw [dedupByKey_cons]
    by_cases hc : mergeSkip col seen r0 = true
    · rw [if_pos hc]
      exact ih seen
    · rw [if_neg hc]
      obtain ⟨-, -, hk0c⟩ := mergeSkip_false col seen r0 hc
      obtain ⟨hnd, hnotin⟩ := ih (seen ++ [rowKeyAt col r0])
      have hk0 : rowKeyAt col r0 ∉ seen := by
        intro hmem
        have : seen.contains (rowKeyAt col r0) = true := by simpa using hmem
        rw [this] at hk0c
        cases hk0c
      constructor
      · rw [List.map_cons]
        refine List.nodup_cons.mpr ⟨?_, hnd⟩
        intro hmem
        rcases List.mem_map.mp hmem with ⟨r, hr, hrk⟩
        exact absurd (List.mem_append_right _ (List.mem_singleton.mpr hrk))
          (hnotin r hr)
      · intro r hr
        rcases List.mem_cons.mp hr with h | h
        · subst h; exact hk0
        · intro hmem
          exact absurd (List.mem_append_left _ hmem) (hnotin r h)

/-- Streaming a concatenation deduplicates the pieces in sequence. -/
theorem dedupByKey_append (col : Nat) (xs ys : List Row) (seen : List String) :
    dedupByKey col (xs ++ ys) seen
      = dedupByKey col xs seen ++ dedupByKey col ys (seenAfter col xs seen) ∧
    seenAfter col (xs ++ ys) seen = seenAfter col ys (seenAfter col xs seen) := by
  induction xs generalizing seen with
  | nil => exact ⟨rfl, rfl⟩
  | cons r0 rs ih =>
    rw [List.cons_append, dedupByKey_cons, dedupByKey_cons, seenAfter_cons,
      seenAfter_cons]
    by_cases hc : mergeSkip col seen r0 = true
    · rw [if_pos hc, if_pos hc, if_pos hc, if_pos hc]
      exact ih seen
    · rw [if_neg hc, if_neg hc, if_neg hc, if_neg hc]
      obtain ⟨h1, h2⟩ := ih (seen ++ [rowKeyAt col r0])
      rw [h1, h2]
      simp

/-- `mergeFiles` over files with the fixed header: success forces every
header to match, and the output extends `out` with the deduplicated rows
of the concatenated streams. -/
theorem mergeFiles_some_spec (key : String) (files : List JFile) (h0 : DataHeader)
    (col : Nat) (out : DataFileM) (had : List String) (d : DataFileM)
    (hcol : h0.get_col_num key = some col)
    (hok : mergeFiles key files (some h0) out had = .ok d) :
    (∀ f ∈ files, f.header = h0) ∧
    d = ⟨out.lines ++ (dedupByKey col ((files.map (fun f => f.rows)).join) had).map .arr,
         out.row_counter
           + (dedupByKey col ((files.map (fun f => f.rows)).join) had).length⟩ := by
  induction files generalizing out had with
  | nil =>
    refine ⟨by simp, ?_⟩
    have hd : out = d := by
      simpa [mergeFiles] using hok
    subst hd
    simp [dedupByKey]
  | cons f fs ih =>
    by_cases hh : h0 = f.header
    · have hcolf : f.header.get_col_num key = some col := hh ▸ hcol
      rw [show mergeFiles key (f :: fs) (some h0) out had
          = mergeFiles key fs (some h0) (mergeRows col f.rows out had).1
              (mergeRows col f.rows out had).2 by
        simp [mergeFiles, hh, hcolf]] at hok
      obtain ⟨hhdrs, hd⟩ := ih _ _ hok
      refine ⟨?_, ?_⟩
      · intro g hg
        rcases List.mem_cons.mp hg with h | h
        · rw [h, hh]
        · exact hhdrs g h
      · rw [mergeRows_spec] at hd
        simp only at hd
        rw [hd]
        obtain ⟨ha, -⟩ := dedupByKey_append col f.rows ((fs.map (fun g => g.rows)).join) had
        simp only [List.map_cons, List.join_cons]
        rw [ha]
        simp [List.append_assoc, List.map_append]
        omega
    · exfalso
      rw [show mergeFiles key (f :: fs) (some h0) out had
          = .error "File has a different header than first file" by
        simp [mergeFiles, hh]] at hok
      exact absurd hok (by simp)

/-- Success shape of `merge_unique` relative to the sorted input files. -/
theorem merge_unique_ok_eq (files : List JFile) (key : String) (d : DataFileM)
    (c : Nat) (sorted : List JFile) (f0 : JFile) (rest : List JFile)
    (hsorted : getFilesWithMetadata files = .ok sorted)
    (hcons : sorted = f0 :: rest)
    (hcol0 : f0.header.get_col_num key = some c)
    (hok : merge_unique files key = .ok d) :
    (∀ f ∈ rest, f.header = f0.header) ∧
    d = ⟨.obj f0.header ::
          (dedupByKey c ((sorted.map (fun f => f.rows)).join) []).map .arr,
         1 + (dedupByKey c ((sorted.map (fun f => f.rows)).join) []).length⟩ := by
  unfold merge_unique at hok
  rw [hsorted] at hok
  subst hcons
  replace hok : mergeFiles key (f0 :: rest) none DataFileM.empty [] = .ok d := hok
  rw [show mergeFiles key (f0 :: rest) none DataFileM.empty []
      = mergeFiles key rest (some f0.header)
          (mergeRows c f0.rows (DataFileM.empty.write_json_row (.obj f0.header)) []).1
          (mergeRows c f0.rows (DataFileM.empty.write_json_row (.obj f0.header)) []).2 by
    simp [mergeFiles, hcol0]] at hok
  obtain ⟨hhdrs, hd⟩ := mergeFiles_some_spec key rest f0.header c _ _ d hcol0 hok
  refine ⟨hhdrs, ?_⟩
  rw [mergeRows_spec] at hd
  simp only at hd
  rw [hd]
  obtain ⟨ha, -⟩ := dedupByKey_append c f0.rows ((rest.map (fun g => g.rows)).join) []
  simp only [List.map_cons, List.join_cons]
  rw [ha]
  simp [DataFileM.empty, DataFileM.write_json_row, List.append_assoc, List.map_append]
  omega

/-- C6 (amended): for every successful merge_unique run over inputs
sharing the key column, no two output rows share a derived key; and
provided additionally that every input row has a non-empty derived key and
rows agreeing on their derived key are identical, the output row set is
exactly the union of the inputs' rows. -/
theorem merge_unique_union_amended (files : List JFile) (key : String) (d : DataFileM)
    (c : Nat)
    (hok : merge_unique files key = .ok d)
    (hcols : ∀ f ∈ files, f.header.get_col_num key = some c) :
    ((∀ f ∈ files, ∀ r ∈ f.rows, rowKeyAt c r ≠ "") →
      (∀ f ∈ files, ∀ g ∈ files, ∀ r ∈ f.rows, ∀ s ∈ g.rows,
        rowKeyAt c r = rowKeyAt c s → r = s) →
      ∀ r : Row, r ∈ d.outRows ↔ ∃ f ∈ files, r ∈ f.rows) ∧
    (d.outRows.map (rowKeyAt c)).Nodup := by
  have hsorted0 : ∃ sorted, getFilesWithMetadata files = .ok sorted := by
    unfold merge_unique at hok
    rcases hs : getFilesWithMetadata files with e | sorted
    · replace hok : (Except.error e : Except String DataFileM) = .ok d := by
        rw [hs] at hok
        exact hok
      exact Except.noConfusion hok
    · exact ⟨sorted, rfl⟩
  obtain ⟨sorted, hsorted⟩ := hsorted0
  have hperm : List.Perm sorted files := by
    unfold getFilesWithMetadata at hsorted
    split at hsorted
    · exact absurd hsorted (by simp)
    · split at hsorted
      · exact absurd hsorted (by simp)
      · exact (Except.ok.inj hsorted) ▸ List.perm_insertionSort _ files
  have hmemsorted : ∀ f ∈ sorted, f ∈ files := fun f hf => hperm.mem_iff.mp hf
  rcases hcons : sorted with _ | ⟨f0, rest⟩
  · exfalso
    unfold getFilesWithMetadata at hsorted
    split at hsorted
    · exact absurd hsorted (by simp)
    · split at hsorted
      · exact absurd hsorted (by simp)
      · have hlen := congrArg List.length (Except.ok.inj hsorted)
        rw [hcons] at hlen
        have hperm2 := List.perm_insertionSort (fun a b => a.size ≤ b.size) files
        have hflen : files.length = 0 := by
          rw [← hperm2.length_eq, hlen]
          rfl
        rename_i hne _
        rw [List.isEmpty_iff_length_eq_zero] at hne
        simp [hflen] at hne
  · have hcol0 : f0.header.get_col_num key = some c :=
      hcols f0 (hmemsorted f0 (hcons ▸ List.mem_cons_self f0 rest))
    obtain ⟨hhdrs, hd⟩ :=
      merge_unique_ok_eq files key d c sorted f0 rest hsorted hcons hcol0 hok
    have hout : d.outRows = dedupByKey c ((sorted.map (fun f => f.rows)).join) [] := by
      rw [hd]
      exact outRows_obj_arr _ _ _
    have hmemall : ∀ r : Row, r ∈ (sorted.map (fun f => f.rows)).join ↔
        ∃ f ∈ files, r ∈ f.rows := by
      intro r
      rw [List.mem_join]
      constructor
      · rintro ⟨lr, hlr, hr⟩
        rcases List.mem_map.mp hlr with ⟨f, hf, rfl⟩
        exact ⟨f, hmemsorted f hf, hr⟩
      · rintro ⟨f, hf, hr⟩
        exact ⟨f.rows, List.mem_map.mpr ⟨f, hperm.mem_iff.mpr hf, rfl⟩, hr⟩
    constructor
    · intro hkne hinj r
      rw [hout]
      constructor
      · intro hr
        exact (hmemall r).mp (dedupByKey_subset _ _ _ _ hr)
      · intro hr
        obtain ⟨f, hf, hrf⟩ := hr
        have hjoin : r ∈ (sorted.map (fun g => g.rows)).join :=
          (hmemall r).mpr ⟨f, hf, hrf⟩
        have hkr : rowKeyAt c r ≠ "" := hkne f hf r hrf
        have hseen := seenAfter_covers c _ [] r hjoin hkr
        rcases seenAfter_source c _ [] _ hseen with h | ⟨e, he, hek⟩
        · simp at h
        · have hejoin : e ∈ (sorted.map (fun g => g.rows)).join :=
            dedupByKey_subset _ _ _ _ he
          obtain ⟨g, hg, heg⟩ := (hmemall e).mp hejoin
          have her : e = r := hinj g hg f hf e heg r hrf hek
          rw [← her]
          exact he
    · rw [hout]
      exact (dedupByKey_nodup c _ []).1

/-- Witness for C6's theorem at a concrete run: two files with distinct
keys `x` and `y` merge to both rows with distinct output keys. -/
theorem merge_unique_union_amended_witness :
    merge_unique [exMfX1, exMfY] "k" = .ok exMergeOut ∧
    ((∀ r : Row, r ∈ exMergeOut.outRows ↔ ∃ f ∈ [exMfX1, exMfY], r ∈ f.rows) ∧
      (exMergeOut.outRows.map (rowKeyAt 0)).Nodup) :=
  ⟨rfl,
    ⟨(merge_unique_union_amended [exMfX1, exMfY] "k" exMergeOut 0 rfl (by decide)).1
        (by decide) (by decide),
      (merge_unique_union_amended [exMfX1, exMfY] "k" exMergeOut 0 rfl (by decide)).2⟩⟩

/-- Counterexample to C6 as stated: two files each holding a row keyed `x`
but with different payloads; the second row is in the union of the inputs
but not in the merge output. -/
theorem merge_unique_union_cex :
    ¬ (([DataCell.PlainText "x", DataCell.Int 2]
          ∈ resOutRows (merge_unique [exMfX1, exMfX2] "k"))
        ↔ ∃ f ∈ [exMfX1, exMfX2],
            [DataCell.PlainText "x", DataCell.Int 2] ∈ f.rows) := by
  decide

-- C2: inner_join_on_key

theorem modifyAt_length {α : Type} (f : α → α) (n : Nat) (l : List α) :
    (modifyAt f n l).length = l.length := by
  induction l generalizing n with
  | nil => cases n <;> rfl
  | cons x xs ih =>
    cases n with
    | zero => rfl
    | succ m => simpa [modifyAt] using ih m

theorem modifyAt_get?_ne {α : Type} (f : α → α) (n j : Nat) (l : List α) (h : n ≠ j) :
    (modifyAt f n l).get? j = l.get? j := by
  induction l generalizing n j with
  | nil => cases n <;> rfl
  | cons x xs ih =>
    cases n with
    | zero =>
      cases j with
      | zero => exact absurd rfl h
      | succ m => rfl
    | succ m =>
      cases j with
      | zero => rfl
      | succ m' => simpa [modifyAt] using ih m m' (by omega)

theorem modifyAt_get?_eq {α : Type} (f : α → α) (n : Nat) (l : List α) :
    (modifyAt f n l).get? n = (l.get? n).map f := by
  induction l generalizing n with
  | nil => cases n <;> rfl
  | cons x xs ih =>
    cases n with
    | zero => rfl
    | succ m => simpa [modifyAt] using ih m

theorem lookupIdx_none_iff (l : List (String × Nat)) (k : String) :
    lookupIdx l k = none ↔ k ∉ l.map Prod.fst := by
  unfold lookupIdx
  rw [Option.map_eq_none', List.find?_eq_none]
  constructor
  · intro h hmem
    rcases List.mem_map.mp hmem with ⟨p, hp, hpk⟩
    exact absurd (by simpa using hpk) (h p hp)
  · intro h p hp
    intro hpk
    exact h (List.mem_map.mpr ⟨p, hp, by simpa using hpk⟩)

theorem lookupIdx_mem (l : List (String × Nat)) (k : String) (j : Nat)
    (h : lookupIdx l k = some j) : (k, j) ∈ l := by
  unfold lookupIdx at h
  rcases hf : l.find? (fun p => p.1 == k) with _ | p
  · rw [hf] at h
    cases h
  · rw [hf] at h
    have hp1 : p.1 = k := by simpa using List.find?_some hf
    have hp2 : p.2 = j := by simpa using h
    have := List.mem_of_find?_eq_some hf
    rw [← hp1, ← hp2]
    simpa using this

theorem lookupCount_of_not_mem (l : List (String × Nat)) (k : String)
    (h : k ∉ l.map Prod.fst) : lookupCount l k = 0 := by
  unfold lookupCount
  rcases hf : l.find? (fun p => p.1 == k) with _ | p
  · rw [hf]
    rfl
  · exfalso
    have hp1 : p.1 = k := by simpa using List.find?_some hf
    exact h (List.mem_map.mpr ⟨p, List.mem_of_find?_eq_some hf, hp1⟩)

theorem find?_fst_of_mem_nodup (l : List (String × Nat)) (k : String) (v : Nat)
    (hnd : (l.map Prod.fst).Nodup) (hm : (k, v) ∈ l) :
    l.find? (fun p => p.1 == k) = some (k, v) := by
  induction l with
  | nil => cases hm
  | cons q qs ih =>
    rw [List.map_cons, List.nodup_cons] at hnd
    rcases List.mem_cons.mp hm with h | h
    · subst h
      simp [List.find?]
    · have hq1 : q.1 ≠ k := by
        intro he
        exact hnd.1 (he ▸ List.mem_map.mpr ⟨(k, v), h, rfl⟩)
      have hb : (q.1 == k) = false := by simpa using hq1
      rw [show ((q :: qs).find? (fun p => p.1 == k)) = qs.find? (fun p => p.1 == k) by
        simp [List.find?, hb]]
      exact ih hnd.2 h

theorem mem_fst_lookupCount (l : List (String × Nat)) (k : String)
    (h : k ∈ l.map Prod.fst) : (k, lookupCount l k) ∈ l := by
  rcases List.mem_map.mp h with ⟨p, hp, hpk⟩
  have hsome : (l.find? (fun q => q.1 == k)).isSome :=
    List.find?_isSome.mpr ⟨p, hp, by simpa using hpk⟩
  rcases hf : l.find? (fun q => q.1 == k) with _ | q
  · rw [hf] at hsome
    cases hsome
  · have hq1 : q.1 = k := by simpa using List.find?_some hf
    have hqc : lookupCount l k = q.2 := by
      unfold lookupCount
      rw [hf]
      rfl
    rw [hqc, ← hq1]
    exact List.mem_of_find?_eq_some hf

theorem bumpKey_count_eq (l : List (String × Nat)) (k : String) :
    lookupCount (bumpKey l k) k = lookupCount l k + 1 := by
  induction l with
  | nil => simp [bumpKey, lookupCount, lookupIdx, List.find?]
  | cons q qs ih =>
    cases q with
    | mk a b =>
      by_cases hq : a = k
      · rw [show bumpKey ((a, b) :: qs) k = (a, b + 1) :: qs by simp [bumpKey, hq]]
        simp [lookupCount, lookupIdx, List.find?, hq]
      · rw [show bumpKey ((a, b) :: qs) k = (a, b) :: bumpKey qs k by simp [bumpKey, hq]]
        have hbq : (a == k) = false := by simpa using hq
        simp only [lookupCount, lookupIdx, List.find?, hbq] at ih ⊢
        exact ih

theorem bumpKey_count_ne (l : List (String × Nat)) (k k' : String) (h : k' ≠ k) :
    lookupCount (bumpKey l k) k' = lookupCount l k' := by
  induction l with
  | nil =>
    have hkk : (k == k') = false := by simpa using (Ne.symm h)
    simp [bumpKey, lookupCount, lookupIdx, List.find?, hkk]
  | cons q qs ih =>
    cases q with
    | mk a b =>
      by_cases hq : a = k
      · rw [show bumpKey ((a, b) :: qs) k = (a, b + 1) :: qs by simp [bumpKey, hq]]
        have hb : (a == k') = false := by simp [hq, Ne.symm h]
        simp [lookupCount, lookupIdx, List.find?, hb]
      · rw [show bumpKey ((a, b) :: qs) k = (a, b) :: bumpKey qs k by simp [bumpKey, hq]]
        by_cases hq' : a = k'
        · simp [lookupCount, lookupIdx, List.find?, hq']
        · have h1 : (a == k') = false := by simpa using hq'
          simp only [lookupCount, lookupIdx, List.find?, h1] at ih ⊢
          exact ih

theorem bumpKey_fst_mem (l : List (String × Nat)) (k k' : String) :
    k' ∈ (bumpKey l k).map Prod.fst ↔ k' ∈ l.map Prod.fst ∨ k' = k := by
  induction l with
  | nil => simp [bumpKey, eq_comm]
  | cons q qs ih =>
    cases q with
    | mk a b =>
      by_cases hq : a = k
      · rw [show bumpKey ((a, b) :: qs) k = (a, b + 1) :: qs by simp [bumpKey, hq]]
        simp only [List.map_cons, List.mem_cons]
        constructor
        · intro h
          exact Or.inl (by simpa using h)
        · intro h
          rcases h with h | h
          · simpa using h
          · exact Or.inl (by rw [h, ← hq])
      · rw [show bumpKey ((a, b) :: qs) k = (a, b) :: bumpKey qs k by simp [bumpKey, hq]]
        simp only [List.map_cons, List.mem_cons]
        rw [ih]
        tauto

theorem bumpKey_fst_nodup (l : List (String × Nat)) (k : String)
    (h : (l.map Prod.fst).Nodup) : ((bumpKey l k).map Prod.fst).Nodup := by
  induction l with
  | nil => simp [bumpKey]
  | cons q qs ih =>
    rw [List.map_cons, List.nodup_cons] at h
    cases q with
    | mk a b =>
      by_cases hq : a = k
      · rw [show bumpKey ((a, b) :: qs) k = (a, b + 1) :: qs by simp [bumpKey, hq]]
        exact List.nodup_cons.mpr ⟨h.1, h.2⟩
      · rw [show bumpKey ((a, b) :: qs) k = (a, b) :: bumpKey qs k by simp [bumpKey, hq]]
        refine List.nodup_cons.mpr ⟨?_, ih h.2⟩
        intro hmem
        rcases (bumpKey_fst_mem qs k a).mp hmem with hmem2 | hmem2
        · exact h.1 hmem2
        · exact hq hmem2

theorem keyIdx_fst (col : Nat) (i : Nat) (rows : List Row) :
    (keyIdx col i rows).map Prod.fst = rows.map (rowKeyAt col) := by
  induction rows generalizing i with
  | nil => rfl
  | cons r rs ih => simpa [keyIdx] using ih (i + 1)

theorem keyIdx_lookup (col : Nat) (rows : List Row) (i : Nat) (k : String) (j : Nat)
    (h : lookupIdx (keyIdx col i rows) k = some j) :
    i ≤ j ∧ ∃ r, rows.get? (j - i) = some r ∧ rowKeyAt col r = k := by
  induction rows generalizing i with
  | nil => cases h
  | cons r rs ih =>
    by_cases hr : rowKeyAt col r = k
    · have : lookupIdx (keyIdx col i (r :: rs)) k = some i := by
        simp [keyIdx, lookupIdx, List.find?, hr]
      rw [this] at h
      injection h with h
      subst h
      exact ⟨Nat.le_refl i, r, by simp, hr⟩
    · have hbr : (rowKeyAt col r == k) = false := by simpa using hr
      have : lookupIdx (keyIdx col i (r :: rs)) k
          = lookupIdx (keyIdx col (i + 1) rs) k := by
        simp [keyIdx, lookupIdx, List.find?, hbr]
      rw [this] at h
      obtain ⟨hle, r', hr', hk'⟩ := ih (i + 1) h
      refine ⟨by omega, r', ?_, hk'⟩
      rw [show j - i = (j - (i + 1)) + 1 by omega]
      simpa using hr'

theorem key2rowAux_ok (col : Nat) (rows : List Row) (i : Nat)
    (acc res : List (String × Nat)) (h : key2rowAux col i rows acc = .ok res) :
    res = acc ++ keyIdx col i rows ∧ ∀ r ∈ rows, (r.get? col).isSome := by
  induction rows generalizing i acc with
  | nil =>
    refine ⟨?_, by simp⟩
    have : acc = res := by simpa [key2rowAux] using h
    simp [keyIdx, ← this]
  | cons r rs ih =>
    rcases hc : r.get? col with _ | cell
    · rw [show key2rowAux col i (r :: rs) acc
          = .error "None value found for key in data row" by
        unfold key2rowAux
        rw [hc]] at h
      cases h
    · by_cases hdup : (acc.find? (fun q => q.1 == cell.as_key)).isSome
      · rw [show key2rowAux col i (r :: rs) acc = .error "Duplicate key in data row" by
          unfold key2rowAux
          rw [hc]
          show (if (List.find? (fun q => q.1 == cell.as_key) acc).isSome = true
              then (Except.error "Duplicate key in data row"
                : Except String (List (String × Nat)))
              else key2rowAux col (i + 1) rs (acc ++ [(cell.as_key, i)])) = _
          rw [if_pos hdup]] at h
        cases h
      · rw [show key2rowAux col i (r :: rs) acc
            = key2rowAux col (i + 1) rs (acc ++ [(cell.as_key, i)]) by
          unfold key2rowAux
          rw [hc]
          show (if (List.find? (fun q => q.1 == cell.as_key) acc).isSome = true
              then (Except.error "Duplicate key in data row"
                : Except String (List (String × Nat)))
              else key2rowAux col (i + 1) rs (acc ++ [(cell.as_key, i)])) = _
          rw [if_neg hdup]
          rw [key2rowAux.eq_def]] at h
        obtain ⟨h1, h2⟩ := ih (i + 1) _ h
        have hck : cell.as_key = rowKeyAt col r := by
          unfold rowKeyAt
          rw [hc]
        refine ⟨?_, ?_⟩
        · rw [h1, hck, keyIdx, List.append_assoc]
          rfl
        · intro r0 hr0
          rcases List.mem_cons.mp hr0 with h | h
          · rw [h, hc]
            rfl
          · exact h2 r0 h

theorem key2rowAux_nodup (col : Nat) (rows : List Row) (i : Nat)
    (acc res : List (String × Nat)) (hacc : (acc.map Prod.fst).Nodup)
    (h : key2rowAux col i rows acc = .ok res) : (res.map Prod.fst).Nodup := by
  induction rows generalizing i acc with
  | nil =>
    have : acc = res := by simpa [key2rowAux] using h
    exact this ▸ hacc
  | cons r rs ih =>
    rcases hc : r.get? col with _ | cell
    · rw [show key2rowAux col i (r :: rs) acc
          = .error "None value found for key in data row" by
        unfold key2rowAux
        rw [hc]] at h
      cases h
    · by_cases hdup : (acc.find? (fun q => q.1 == cell.as_key)).isSome
      · rw [show key2rowAux col i (r :: rs) acc = .error "Duplicate key in data row" by
          unfold key2rowAux
          rw [hc]
          show (if (List.find? (fun q => q.1 == cell.as_key) acc).isSome = true
              then (Except.error "Duplicate key in data row"
                : Except String (List (String × Nat)))
              else key2rowAux col (i + 1) rs (acc ++ [(cell.as_key, i)])) = _
          rw [if_pos hdup]] at h
        cases h
      · rw [show key2rowAux col i (r :: rs) acc
            = key2rowAux col (i + 1) rs (acc ++ [(cell.as_key, i)]) by
          unfold key2rowAux
          rw [hc]
          show (if (List.find? (fun q => q.1 == cell.as_key) acc).isSome = true
              then (Except.error "Duplicate key in data row"
                : Except String (List (String × Nat)))
              else key2rowAux col (i + 1) rs (acc ++ [(cell.as_key, i)])) = _
          rw [if_neg hdup]
          rw [key2rowAux.eq_def]] at h
        refine ih (i + 1) _ ?_ h
        rw [List.map_append, List.nodup_append]
        refine ⟨hacc, by simp, ?_⟩
        intro a ha hb
        have : a = cell.as_key := by simpa using hb
        subst this
        have : (acc.find? (fun q => q.1 == cell.as_key)).isSome := by
          rcases List.mem_map.mp ha with ⟨p, hp, hpk⟩
          exact List.find?_isSome.mpr ⟨p, hp, by simpa using hpk⟩
        exact hdup this

theorem key2row_ok (hdr : DataHeader) (rows : List Row) (key : String)
    (k2r : List (String × Nat)) (h : key2row hdr rows key = .ok k2r) :
    ∃ c, hdr.get_col_num key = some c ∧ k2r = keyIdx c 0 rows ∧
      (k2r.map Prod.fst).Nodup ∧ ∀ r ∈ rows, (r.get? c).isSome := by
  unfold key2row at h
  rcases hc : hdr.get_col_num key with _ | c
  · rw [hc] at h
    cases h
  · rw [hc] at h
    obtain ⟨h1, h2⟩ := key2rowAux_ok c rows 0 [] k2r h
    exact ⟨c, rfl, by simpa using h1, key2rowAux_nodup c rows 0 [] k2r (by simp) h, h2⟩

theorem Ext_refl (rs : List Row) : Ext rs rs :=
  ⟨rfl, fun j r h => ⟨[], by simpa using h⟩⟩

theorem Ext_trans (a b c : List Row) (h1 : Ext a b) (h2 : Ext b c) : Ext a c := by
  refine ⟨h2.1.trans h1.1, ?_⟩
  intro j r h
  obtain ⟨e1, he1⟩ := h1.2 j r h
  obtain ⟨e2, he2⟩ := h2.2 j _ he1
  exact ⟨e1 ++ e2, by simpa [List.append_assoc] using he2⟩

theorem Ext_modifyAt (rs : List Row) (j : Nat) (g : Row) :
    Ext rs (modifyAt (fun r => r ++ g) j rs) := by
  refine ⟨modifyAt_length _ _ _, ?_⟩
  intro j' r h
  by_cases hj : j = j'
  · subst hj
    exact ⟨g, by rw [modifyAt_get?_eq, h]; rfl⟩
  · exact ⟨[], by rw [modifyAt_get?_ne _ _ _ _ hj, h]; simp⟩

theorem ne_empty_isEmpty_false (s : String) (h : s ≠ "") : s.isEmpty = false := by
  cases hke : s.isEmpty
  · rfl
  · exact absurd (by simpa [String.isEmpty_iff] using hke) h

theorem rowKeyAt_of_row_isEmpty (col : Nat) (row : Row) (h : row.isEmpty = true) :
    rowKeyAt col row = "" := by
  cases row with
  | nil => exact rowKeyAt_nil col
  | cons a l => simp at h

theorem rowKeyAt_append (c : Nat) (r ext : Row) (h : (r.get? c).isSome) :
    rowKeyAt c (r ++ ext) = rowKeyAt c r := by
  rcases hg : r.get? c with _ | cell
  · rw [hg] at h
    cases h
  · have hlt : c < r.length := by
      by_contra hx
      rw [List.get?_eq_none.mpr (by omega)] at hg
      cases hg
    unfold rowKeyAt
    rw [List.get?_append hlt, hg]

theorem outRows_write_arr (out : DataFileM) (row : Row) (h : row ≠ []) :
    (out.write_json_row (.arr row)).outRows = out.outRows ++ [row] := by
  rw [show out.write_json_row (.arr row) = ⟨out.lines ++ [.arr row], out.row_counter + 1⟩ by
    show (if row.isEmpty = true then out
        else ⟨out.lines ++ [JsonValue.arr row], out.row_counter + 1⟩) = _
    rw [if_neg (by simpa using h)]]
  simp [DataFileM.outRows, List.filterMap_append]

theorem joinRowStep_skip (k2r : List (String × Nat)) (col : Nat) (st : JoinState)
    (row : Row)
    (h : (row.isEmpty || (rowKeyAt col row).isEmpty) = true ∨
      lookupIdx k2r (rowKeyAt col row) = none) :
    joinRowStep k2r col st row = st := by
  unfold joinRowStep
  rcases h with h | h
  · rw [if_pos h]
  · by_cases hc : (row.isEmpty || (rowKeyAt col row).isEmpty) = true
    · rw [if_pos hc]
    · rw [if_neg hc, h]

theorem joinRowStep_hit (k2r : List (String × Nat)) (col : Nat) (st : JoinState)
    (row : Row) (j : Nat)
    (hne : (row.isEmpty || (rowKeyAt col row).isEmpty) = false)
    (hj : lookupIdx k2r (rowKeyAt col row) = some j) :
    joinRowStep k2r col st row =
      ⟨st.mainHeader, modifyAt (fun r => r ++ row.eraseIdx col) j st.mainRows,
        bumpKey st.keysFound (rowKeyAt col row)⟩ := by
  unfold joinRowStep
  rw [if_neg (by simp [hne]), hj]

theorem joinFold_ext (k2r : List (String × Nat)) (col : Nat) (rows : List Row)
    (st : JoinState) : Ext st.mainRows (rows.foldl (joinRowStep k2r col) st).mainRows := by
  induction rows generalizing st with
  | nil => exact Ext_refl _
  | cons r rs ih =>
    rw [List.foldl_cons]
    refine Ext_trans _ (joinRowStep k2r col st r).mainRows _ ?_ (ih _)
    by_cases hc : (r.isEmpty || (rowKeyAt col r).isEmpty) = true
    · rw [joinRowStep_skip k2r col st r (Or.inl hc)]
      exact Ext_refl _
    · rcases hl : lookupIdx k2r (rowKeyAt col r) with _ | j
      · rw [joinRowStep_skip k2r col st r (Or.inr hl)]
        exact Ext_refl _
      · rw [joinRowStep_hit k2r col st r j (Bool.eq_false_iff.mpr hc) hl]
        exact Ext_modifyAt _ _ _

theorem joinFold_count (k2r : List (String × Nat)) (col : Nat) (rows : List Row)
    (st : JoinState) (k : String) (hk : k ≠ "") (hdom : lookupIdx k2r k ≠ none) :
    lookupCount (rows.foldl (joinRowStep k2r col) st).keysFound k
      = lookupCount st.keysFound k + rows.countP (fun r => rowKeyAt col r == k) := by
  induction rows generalizing st with
  | nil => simp
  | cons r rs ih =>
    rw [List.foldl_cons, ih]
    by_cases hr : rowKeyAt col r = k
    · have h1 : k.isEmpty = false := ne_empty_isEmpty_false k hk
      have h0 : r.isEmpty = false := by
        cases hre : r.isEmpty
        · rfl
        · exfalso
          have h2 := rowKeyAt_of_row_isEmpty col r hre
          rw [hr] at h2
          exact hk h2
      have hne : (r.isEmpty || (rowKeyAt col r).isEmpty) = false := by
        rw [h0, hr, h1]
        rfl
      rcases hj : lookupIdx k2r k with _ | j
      · exact absurd hj hdom
      · rw [joinRowStep_hit k2r col st r j hne (by rw [hr]; exact hj)]
        dsimp only
        rw [hr, bumpKey_count_eq]
        simp [List.countP_cons, hr]
        omega
    · by_cases hc : (r.isEmpty || (rowKeyAt col r).isEmpty) = true
      · rw [joinRowStep_skip k2r col st r (Or.inl hc)]
        simp [List.countP_cons, hr]
      · rcases hl : lookupIdx k2r (rowKeyAt col r) with _ | j
        · rw [joinRowStep_skip k2r col st r (Or.inr hl)]
          simp [List.countP_cons, hr]
        · rw [joinRowStep_hit k2r col st r j (Bool.eq_false_iff.mpr hc) hl]
          dsimp only
          rw [bumpKey_count_ne st.keysFound (rowKeyAt col r) k (fun he => hr he.symm)]
          simp [List.countP_cons, hr]

theorem joinFold_domain (k2r : List (String × Nat)) (col : Nat) (rows : List Row)
    (st : JoinState) (k : String)
    (h : k ∈ (rows.foldl (joinRowStep k2r col) st).keysFound.map Prod.fst) :
    k ∈ st.keysFound.map Prod.fst ∨ (lookupIdx k2r k ≠ none ∧ k ≠ "") := by
  induction rows generalizing st with
  | nil => exact Or.inl h
  | cons r rs ih =>
    rw [List.foldl_cons] at h
    rcases ih _ h with h2 | h2
    · by_cases hc : (r.isEmpty || (rowKeyAt col r).isEmpty) = true
      · rw [joinRowStep_skip k2r col st r (Or.inl hc)] at h2
        exact Or.inl h2
      · rcases hl : lookupIdx k2r (rowKeyAt col r) with _ | j
        · rw [joinRowStep_skip k2r col st r (Or.inr hl)] at h2
          exact Or.inl h2
        · rw [joinRowStep_hit k2r col st r j (Bool.eq_false_iff.mpr hc) hl] at h2
          dsimp only at h2
          rcases (bumpKey_fst_mem st.keysFound (rowKeyAt col r) k).mp h2 with h3 | h3
          · exact Or.inl h3
          · subst h3
            refine Or.inr ⟨by rw [hl]; exact fun hx => Option.noConfusion hx, ?_⟩
            have hkey : (rowKeyAt col r).isEmpty = false :=
              (Bool.or_eq_false_iff.mp (Bool.eq_false_iff.mpr hc)).2
            intro he
            rw [he] at hkey
            exact absurd hkey (by decide)
    · exact Or.inr h2

theorem joinFold_nodup (k2r : List (String × Nat)) (col : Nat) (rows : List Row)
    (st : JoinState) (h : (st.keysFound.map Prod.fst).Nodup) :
    (((rows.foldl (joinRowStep k2r col) st).keysFound).map Prod.fst).Nodup := by
  induction rows generalizing st with
  | nil => exact h
  | cons r rs ih =>
    rw [List.foldl_cons]
    refine ih _ ?_
    by_cases hc : (r.isEmpty || (rowKeyAt col r).isEmpty) = true
    · rw [joinRowStep_skip k2r col st r (Or.inl hc)]
      exact h
    · rcases hl : lookupIdx k2r (rowKeyAt col r) with _ | j
      · rw [joinRowStep_skip k2r col st r (Or.inr hl)]
        exact h
      · rw [joinRowStep_hit k2r col st r j (Bool.eq_false_iff.mpr hc) hl]
        exact bumpKey_fst_nodup st.keysFound (rowKeyAt col r) h

theorem sumCounts_cons (key k : String) (f : JFile) (fs : List JFile) :
    sumCounts key k (f :: fs) =
      (match f.header.get_col_num key with
        | some cf => f.rows.countP (fun r => rowKeyAt cf r == k)
        | none => 0) + sumCounts key k fs := rfl

theorem sumCounts_cons_some (key k : String) (f : JFile) (fs : List JFile) (c : Nat)
    (hc : f.header.get_col_num key = some c) :
    sumCounts key k (f :: fs)
      = f.rows.countP (fun r => rowKeyAt c r == k) + sumCounts key k fs := by
  rw [sumCounts_cons, hc]

theorem sumCounts_cons_none (key k : String) (f : JFile) (fs : List JFile)
    (hc : f.header.get_col_num key = none) :
    sumCounts key k (f :: fs) = 0 + sumCounts key k fs := by
  rw [sumCounts_cons, hc]

theorem joinFiles_cons (k2r : List (String × Nat)) (key : String) (f : JFile)
    (fs : List JFile) (st : JoinState) :
    joinFiles k2r key (f :: fs) st =
      match f.header.get_col_num key with
      | none => .error ("No key " ++ key ++ " in file")
      | some col =>
        joinFiles k2r key fs (f.rows.foldl (joinRowStep k2r col)
          ⟨st.mainHeader.add_header ⟨f.header.columns.eraseIdx col⟩,
            st.mainRows, st.keysFound⟩) := rfl

theorem joinFiles_ext (k2r : List (String × Nat)) (key : String) (files : List JFile)
    (st st' : JoinState) (h : joinFiles k2r key files st = .ok st') :
    Ext st.mainRows st'.mainRows := by
  induction files generalizing st with
  | nil =>
    have he : st = st' := by simpa [joinFiles] using h
    exact he ▸ Ext_refl _
  | cons f fs ih =>
    rcases hc : f.header.get_col_num key with _ | col
    · rw [show joinFiles k2r key (f :: fs) st = .error ("No key " ++ key ++ " in file") by
        rw [joinFiles_cons, hc]] at h
      cases h
    · rw [show joinFiles k2r key (f :: fs) st
          = joinFiles k2r key fs (f.rows.foldl (joinRowStep k2r col)
              ⟨st.mainHeader.add_header ⟨f.header.columns.eraseIdx col⟩,
                st.mainRows, st.keysFound⟩) by
        rw [joinFiles_cons, hc]] at h
      refine Ext_trans _ _ _ ?_ (ih _ h)
      exact joinFold_ext k2r col f.rows
        ⟨st.mainHeader.add_header ⟨f.header.columns.eraseIdx col⟩, st.mainRows, st.keysFound⟩

theorem joinFiles_count (k2r : List (String × Nat)) (key : String) (files : List JFile)
    (st st' : JoinState) (k : String) (hk : k ≠ "") (hdom : lookupIdx k2r k ≠ none)
    (h : joinFiles k2r key files st = .ok st') :
    lookupCount st'.keysFound k = lookupCount st.keysFound k + sumCounts key k files := by
  induction files generalizing st with
  | nil =>
    have he : st = st' := by simpa [joinFiles] using h
    subst he
    simp [sumCounts]
  | cons f fs ih =>
    rcases hc : f.header.get_col_num key with _ | col
    · rw [show joinFiles k2r key (f :: fs) st = .error ("No key " ++ key ++ " in file") by
        rw [joinFiles_cons, hc]] at h
      cases h
    · rw [show joinFiles k2r key (f :: fs) st
          = joinFiles k2r key fs (f.rows.foldl (joinRowStep k2r col)
              ⟨st.mainHeader.add_header ⟨f.header.columns.eraseIdx col⟩,
                st.mainRows, st.keysFound⟩) by
        rw [joinFiles_cons, hc]] at h
      rw [ih _ h, joinFold_count k2r col f.rows _ k hk hdom]
      dsimp only
      rw [sumCounts_cons_some key k f fs col hc]
      omega

theorem joinFiles_domain (k2r : List (String × Nat)) (key : String) (files : List JFile)
    (st st' : JoinState) (k : String) (h : joinFiles k2r key files st = .ok st')
    (hmem : k ∈ st'.keysFound.map Prod.fst) :
    k ∈ st.keysFound.map Prod.fst ∨ (lookupIdx k2r k ≠ none ∧ k ≠ "") := by
  induction files generalizing st with
  | nil =>
    have he : st = st' := by simpa [joinFiles] using h
    exact Or.inl (he ▸ hmem)
  | cons f fs ih =>
    rcases hc : f.header.get_col_num key with _ | col
    · rw [show joinFiles k2r key (f :: fs) st = .error ("No key " ++ key ++ " in file") by
        rw [joinFiles_cons, hc]] at h
      cases h
    · rw [show joinFiles k2r key (f :: fs) st
          = joinFiles k2r key fs (f.rows.foldl (joinRowStep k2r col)
              ⟨st.mainHeader.add_header ⟨f.header.columns.eraseIdx col⟩,
                st.mainRows, st.keysFound⟩) by
        rw [joinFiles_cons, hc]] at h
      rcases ih _ h with h2 | h2
      · exact joinFold_domain k2r col f.rows
          ⟨st.mainHeader.add_header ⟨f.header.columns.eraseIdx col⟩, st.mainRows, st.keysFound⟩
          k h2
      · exact Or.inr h2

theorem joinFiles_nodup (k2r : List (String × Nat)) (key : String) (files : List JFile)
    (st st' : JoinState) (hnd : (st.keysFound.map Prod.fst).Nodup)
    (h : joinFiles k2r key files st = .ok st') :
    (st'.keysFound.map Prod.fst).Nodup := by
  induction files generalizing st with
  | nil =>
    have he : st = st' := by simpa [joinFiles] using h
    exact he ▸ hnd
  | cons f fs ih =>
    rcases hc : f.header.get_col_num key with _ | col
    · rw [show joinFiles k2r key (f :: fs) st = .error ("No key " ++ key ++ " in file") by
        rw [joinFiles_cons, hc]] at h
      cases h
    · rw [show joinFiles k2r key (f :: fs) st
          = joinFiles k2r key fs (f.rows.foldl (joinRowStep k2r col)
              ⟨st.mainHeader.add_header ⟨f.header.columns.eraseIdx col⟩,
                st.mainRows, st.keysFound⟩) by
        rw [joinFiles_cons, hc]] at h
      exact ih _ (joinFold_nodup k2r col f.rows
        ⟨st.mainHeader.add_header ⟨f.header.columns.eraseIdx col⟩, st.mainRows, st.keysFound⟩
        hnd) h

theorem joinFiles_cols (k2r : List (String × Nat)) (key : String) (files : List JFile)
    (st st' : JoinState) (h : joinFiles k2r key files st = .ok st') :
    ∀ f ∈ files, (f.header.get_col_num key).isSome := by
  induction files generalizing st with
  | nil => intro f hf; cases hf
  | cons f fs ih =>
    rcases hc : f.header.get_col_num key with _ | col
    · rw [show joinFiles k2r key (f :: fs) st = .error ("No key " ++ key ++ " in file") by
        rw [joinFiles_cons, hc]] at h
      cases h
    · rw [show joinFiles k2r key (f :: fs) st
          = joinFiles k2r key fs (f.rows.foldl (joinRowStep k2r col)
              ⟨st.mainHeader.add_header ⟨f.header.columns.eraseIdx col⟩,
                st.mainRows, st.keysFound⟩) by
        rw [joinFiles_cons, hc]] at h
      intro g hg
      rcases List.mem_cons.mp hg with he | hgf
      · rw [he, hc]
        rfl
      · exact ih _ h g hgf

theorem file_countP_eq (f : JFile) (key k : String) (c : Nat)
    (hc : f.header.get_col_num key = some c) :
    f.rows.countP (fun r => rowKeyAt c r == k) = (f.fileKeys key).count k := by
  unfold JFile.fileKeys JFile.keyColumn
  rw [hc]
  show _ = (f.rows.map (rowKeyAt c)).countP (fun s => s == k)
  rw [List.countP_map]
  rfl

theorem file_count_le_one (f : JFile) (key k : String) (c : Nat) (hk : k ≠ "")
    (hc : f.header.get_col_num key = some c)
    (hnd : ((f.fileKeys key).filter (fun s => !s.isEmpty)).Nodup) :
    f.rows.countP (fun r => rowKeyAt c r == k) ≤ 1 := by
  rw [file_countP_eq f key k c hc]
  have h2 : ((f.fileKeys key).filter (fun s => !s.isEmpty)).count k
      = (f.fileKeys key).count k :=
    List.count_filter (by simp [ne_empty_isEmpty_false k hk])
  rw [← h2]
  exact List.nodup_iff_count_le_one.mp hnd k

theorem file_count_pos_iff (f : JFile) (key k : String) (c : Nat)
    (hc : f.header.get_col_num key = some c) :
    0 < f.rows.countP (fun r => rowKeyAt c r == k) ↔ k ∈ f.fileKeys key := by
  rw [file_countP_eq f key k c hc]
  exact List.count_pos_iff

theorem sumCounts_le (key k : String) (files : List JFile) (hk : k ≠ "")
    (hnd : ∀ f ∈ files, ((f.fileKeys key).filter (fun s => !s.isEmpty)).Nodup) :
    sumCounts key k files ≤ files.length := by
  induction files with
  | nil => simp [sumCounts]
  | cons f fs ih =>
    have hrest := ih (fun g hg => hnd g (List.mem_cons_of_mem f hg))
    rcases hc : f.header.get_col_num key with _ | c
    · rw [sumCounts_cons_none key k f fs hc]
      simp only [List.length_cons]
      omega
    · rw [sumCounts_cons_some key k f fs c hc]
      have h1 := file_count_le_one f key k c hk hc (hnd f (List.mem_cons_self f fs))
      simp only [List.length_cons]
      omega

theorem sumCounts_eq_len_iff (key k : String) (files : List JFile) (hk : k ≠ "")
    (hcols : ∀ f ∈ files, (f.header.get_col_num key).isSome)
    (hnd : ∀ f ∈ files, ((f.fileKeys key).filter (fun s => !s.isEmpty)).Nodup) :
    sumCounts key k files = files.length ↔ ∀ f ∈ files, k ∈ f.fileKeys key := by
  induction files with
  | nil => simp [sumCounts]
  | cons f fs ih =>
    rcases hc : f.header.get_col_num key with _ | c
    · exfalso
      have hs := hcols f (List.mem_cons_self f fs)
      rw [hc] at hs
      cases hs
    · rw [sumCounts_cons_some key k f fs c hc]
      have h1 := file_count_le_one f key k c hk hc (hnd f (List.mem_cons_self f fs))
      have h2 := sumCounts_le key k fs hk (fun g hg => hnd g (List.mem_cons_of_mem f hg))
      have h3 := ih (fun g hg => hcols g (List.mem_cons_of_mem f hg))
        (fun g hg => hnd g (List.mem_cons_of_mem f hg))
      have hpos := file_count_pos_iff f key k c hc
      constructor
      · intro hsum
        simp only [List.length_cons] at hsum
        have hcf : f.rows.countP (fun r => rowKeyAt c r == k) = 1 := by omega
        have hfs : sumCounts key k fs = fs.length := by omega
        intro g hg
        rcases List.mem_cons.mp hg with he | hgf
        · exact he ▸ hpos.mp (by omega)
        · exact h3.mp hfs g hgf
      · intro hall
        have hcf : 0 < f.rows.countP (fun r => rowKeyAt c r == k) :=
          hpos.mpr (hall f (List.mem_cons_self f fs))
        have hfs : sumCounts key k fs = fs.length :=
          h3.mpr (fun g hg => hall g (List.mem_cons_of_mem f hg))
        simp only [List.length_cons]
        omega

theorem joinEmit_cons_some (k2r : List (String × Nat)) (mainRows : List Row)
    (k0 : String) (rest : List String) (out : DataFileM) (j : Nat) (row : Row)
    (hl : lookupIdx k2r k0 = some j) (hg : mainRows.get? j = some row) :
    joinEmit k2r mainRows (k0 :: rest) out
      = joinEmit k2r mainRows rest (out.write_json_row (.arr row)) := by
  show (match lookupIdx k2r k0 with
    | none => joinEmit k2r mainRows rest out
    | some row_id =>
      match mainRows.get? row_id with
      | none => joinEmit k2r mainRows rest out
      | some row2 => joinEmit k2r mainRows rest (out.write_json_row (.arr row2))) = _
  rw [hl]
  show (match mainRows.get? j with
    | none => joinEmit k2r mainRows rest out
    | some row2 => joinEmit k2r mainRows rest (out.write_json_row (.arr row2))) = _
  rw [hg]

theorem joinEmit_outRows (k2r : List (String × Nat)) (mainRows : List Row) (c : Nat)
    (ks : List String) (out : DataFileM)
    (h : ∀ k0 ∈ ks, ∃ j row, lookupIdx k2r k0 = some j ∧ mainRows.get? j = some row ∧
        rowKeyAt c row = k0 ∧ row ≠ []) :
    (joinEmit k2r mainRows ks out).outRows.map (rowKeyAt c)
      = out.outRows.map (rowKeyAt c) ++ ks := by
  induction ks generalizing out with
  | nil => simp [joinEmit]
  | cons k0 rest ih =>
    obtain ⟨j, row, hl, hg, hkey, hro⟩ := h k0 (List.mem_cons_self k0 rest)
    rw [joinEmit_cons_some k2r mainRows k0 rest out j row hl hg]
    rw [ih _ (fun k1 hk1 => h k1 (List.mem_cons_of_mem k0 hk1))]
    rw [outRows_write_arr out row hro]
    simp [hkey]

theorem getFilesWithMetadata_ok (files sorted : List JFile)
    (h : getFilesWithMetadata files = .ok sorted) :
    sorted = List.insertionSort (fun a b => a.size ≤ b.size) files ∧
      2 ≤ files.length := by
  unfold getFilesWithMetadata at h
  by_cases h1 : files.isEmpty = true
  · rw [if_pos h1] at h
    cases h
  · rw [if_neg h1] at h
    by_cases h2 : (files.length == 1) = true
    · rw [if_pos h2] at h
      cases h
    · rw [if_neg h2] at h
      refine ⟨(Except.ok.inj h).symm, ?_⟩
      have hne : files.length ≠ 1 := by simpa using h2
      have h0 : files.length ≠ 0 := by
        have : files ≠ [] := by simpa using h1
        simpa [List.length_eq_zero] using this
      omega

theorem inner_join_ok_eq (files : List JFile) (key : String) (main : JFile)
    (data_files : List JFile)
    (hg : getFilesWithMetadata files = .ok (main :: data_files)) :
    inner_join_on_key files key =
      (key2row main.header main.rows key).bind (fun k2r =>
        (joinFiles k2r key data_files ⟨main.header, main.rows, []⟩).bind (fun st =>
          Except.ok (joinEmit k2r st.mainRows
            ((st.keysFound.filter (fun p => p.2 == data_files.length)).map (fun p => p.1))
            (DataFileM.empty.write_json_row (.obj st.mainHeader))))) := by
  unfold inner_join_on_key
  rw [hg]
  rfl

theorem joinOutputKeys_eq (files : List JFile) (key : String) (d : DataFileM)
    (main : JFile) (dfs : List JFile) (c : Nat)
    (hg : getFilesWithMetadata files = .ok (main :: dfs))
    (hc : main.header.get_col_num key = some c) :
    joinOutputKeys files key d = d.outRows.map (rowKeyAt c) := by
  unfold joinOutputKeys
  rw [hg]
  show (match JFile.keyColumn main key with
    | some c2 => d.outRows.map (rowKeyAt c2)
    | none => ([] : List String)) = _
  rw [show JFile.keyColumn main key = some c by
    unfold JFile.keyColumn
    exact hc]

/-- C2 (amended): for `inner_join_on_key` over at least two input artifacts
that all contain the key column (both guaranteed by a successful run),
provided within each input the non-empty derived keys are pairwise
distinct, a non-empty key appears in the output artifact iff it appears in
every input artifact. -/
theorem inner_join_key_iff_amended (files : List JFile) (key k : String) (d : DataFileM)
    (hok : inner_join_on_key files key = .ok d)
    (hnd : ∀ f ∈ files, ((f.fileKeys key).filter (fun s => !s.isEmpty)).Nodup)
    (hk : k ≠ "") :
    k ∈ joinOutputKeys files key d ↔ ∀ f ∈ files, k ∈ f.fileKeys key := by
  have hsorted0 : ∃ sorted, getFilesWithMetadata files = .ok sorted := by
    unfold inner_join_on_key at hok
    rcases hs : getFilesWithMetadata files with e | sorted
    · rw [hs] at hok
      cases hok
    · exact ⟨sorted, rfl⟩
  obtain ⟨sorted, hsorted⟩ := hsorted0
  obtain ⟨hins, hlen2⟩ := getFilesWithMetadata_ok files sorted hsorted
  have hperm : List.Perm sorted files := hins ▸ List.perm_insertionSort _ files
  rcases hsor : sorted with _ | ⟨main, data_files⟩
  · exfalso
    have hl := hperm.length_eq
    rw [hsor] at hl
    simp at hl
    omega
  · have hg : getFilesWithMetadata files = .ok (main :: data_files) := hsor ▸ hsorted
    have hperm2 : List.Perm (main :: data_files) files := hsor ▸ hperm
    rw [inner_join_ok_eq files key main data_files hg] at hok
    rcases hk2 : key2row main.header main.rows key with e | k2r
    · rw [hk2] at hok
      cases hok
    · rw [hk2] at hok
      replace hok : (joinFiles k2r key data_files ⟨main.header, main.rows, []⟩).bind
          (fun st => Except.ok (joinEmit k2r st.mainRows
            ((st.keysFound.filter (fun p => p.2 == data_files.length)).map (fun p => p.1))
            (DataFileM.empty.write_json_row (.obj st.mainHeader)))) = .ok d := hok
      rcases hst : joinFiles k2r key data_files ⟨main.header, main.rows, []⟩ with e | st
      · rw [hst] at hok
        cases hok
      · rw [hst] at hok
        replace hok : Except.ok (joinEmit k2r st.mainRows
            ((st.keysFound.filter (fun p => p.2 == data_files.length)).map (fun p => p.1))
            (DataFileM.empty.write_json_row (.obj st.mainHeader)))
            = (Except.ok d : Except String DataFileM) := hok
        have hd := Except.ok.inj hok
        obtain ⟨c, hcol, hk2r, hk2rnd, hcells⟩ :=
          key2row_ok main.header main.rows key k2r hk2
        have hjok := joinOutputKeys_eq files key d main data_files c hg hcol
        have hnd' : (st.keysFound.map Prod.fst).Nodup :=
          joinFiles_nodup k2r key data_files ⟨main.header, main.rows, []⟩ st
            (by simp) hst
        have hcols : ∀ f ∈ data_files, (f.header.get_col_num key).isSome :=
          joinFiles_cols k2r key data_files ⟨main.header, main.rows, []⟩ st hst
        have hcount : lookupIdx k2r k ≠ none →
            lookupCount st.keysFound k = sumCounts key k data_files := by
          intro hkd
          have hq := joinFiles_count k2r key data_files
            ⟨main.header, main.rows, []⟩ st k hk hkd hst
          simpa [lookupCount] using hq
        have hmain_keys : main.fileKeys key = main.rows.map (rowKeyAt c) := by
          unfold JFile.fileKeys JFile.keyColumn
          rw [hcol]
        have hk2r_dom : k2r.map Prod.fst = main.rows.map (rowKeyAt c) := by
          rw [hk2r, keyIdx_fst]
        have hsum_iff := sumCounts_eq_len_iff key k data_files hk hcols
          (fun f hf => hnd f (hperm2.mem_iff.mp (List.mem_cons_of_mem main hf)))
        have hn1 : 1 ≤ data_files.length := by
          have hl := hperm.length_eq
          rw [hsor] at hl
          simp at hl
          omega
        have hemit : ∀ k0 ∈ (st.keysFound.filter
              (fun p => p.2 == data_files.length)).map (fun p => p.1),
            ∃ j row, lookupIdx k2r k0 = some j ∧ st.mainRows.get? j = some row ∧
              rowKeyAt c row = k0 ∧ row ≠ [] := by
          intro k0 hk0
          rcases List.mem_map.mp hk0 with ⟨p, hpf, hpk⟩
          rcases List.mem_filter.mp hpf with ⟨hpl, -⟩
          have hdomk : k0 ∈ st.keysFound.map Prod.fst :=
            List.mem_map.mpr ⟨p, hpl, hpk⟩
          have hdom2 := joinFiles_domain k2r key data_files
            ⟨main.header, main.rows, []⟩ st k0 hst hdomk
          rcases hdom2 with h2 | ⟨h2, h2ne⟩
          · simp at h2
          · rcases hj : lookupIdx k2r k0 with _ | j
            · exact absurd hj h2
            · have hj' : lookupIdx (keyIdx c 0 main.rows) k0 = some j := by
                rw [← hk2r]
                exact hj
              obtain ⟨-, r0, hr0, hkey0⟩ := keyIdx_lookup c main.rows 0 k0 j hj'
              have hr0' : main.rows.get? j = some r0 := by simpa using hr0
              have hext := joinFiles_ext k2r key data_files
                ⟨main.header, main.rows, []⟩ st hst
              obtain ⟨ext, hrow⟩ := hext.2 j r0 hr0'
              have hkapp : rowKeyAt c (r0 ++ ext) = k0 := by
                rw [rowKeyAt_append c r0 ext (hcells r0 (List.get?_mem hr0'))]
                exact hkey0
              refine ⟨j, r0 ++ ext, rfl, hrow, hkapp, ?_⟩
              intro he
              rw [he, rowKeyAt_nil] at hkapp
              exact h2ne hkapp.symm
        have hkeys : d.outRows.map (rowKeyAt c)
            = (st.keysFound.filter (fun p => p.2 == data_files.length)).map
                (fun p => p.1) := by
          rw [← hd]
          rw [joinEmit_outRows k2r st.mainRows c _ _ hemit]
          rw [show (DataFileM.empty.write_json_row (.obj st.mainHeader)).outRows
              = [] from rfl]
          simp
        rw [hjok, hkeys]
        constructor
        · intro hmem
          rcases List.mem_map.mp hmem with ⟨p, hpf, hpk⟩
          rcases List.mem_filter.mp hpf with ⟨hpl, hpn⟩
          have hp2 : p.2 = data_files.length := by simpa using hpn
          have hkp : (k, p.2) ∈ st.keysFound := by
            cases p with
            | mk a b =>
              simp only at hpk
              rw [← hpk]
              exact hpl
          have hfind : st.keysFound.find? (fun q => q.1 == k) = some (k, p.2) :=
            find?_fst_of_mem_nodup st.keysFound k p.2 hnd' hkp
          have hlc : lookupCount st.keysFound k = p.2 := by
            unfold lookupCount
            rw [hfind]
            rfl
          have hdomk : k ∈ st.keysFound.map Prod.fst :=
            List.mem_map.mpr ⟨p, hpl, hpk⟩
          rcases joinFiles_domain k2r key data_files
              ⟨main.header, main.rows, []⟩ st k hst hdomk with h2 | ⟨h2, -⟩
          · simp at h2
          · have hsum : sumCounts key k data_files = data_files.length := by
              rw [← hcount h2, hlc, hp2]
            have hall_df := hsum_iff.mp hsum
            intro f hf
            have hf' : f ∈ main :: data_files := hperm2.mem_iff.mpr hf
            rcases List.mem_cons.mp hf' with he | hfd
            · subst he
              rw [hmain_keys, ← hk2r_dom]
              rcases hl2 : lookupIdx k2r k with _ | j
              · exact absurd hl2 h2
              · exact List.mem_map.mpr ⟨(k, j), lookupIdx_mem k2r k j hl2, rfl⟩
            · exact hall_df f hfd
        · intro hall
          have hmaink : k ∈ main.fileKeys key :=
            hall main (hperm2.mem_iff.mp (List.mem_cons_self main data_files))
          have hkdom : k ∈ k2r.map Prod.fst := by
            rw [hk2r_dom, ← hmain_keys]
            exact hmaink
          have hkne_none : lookupIdx k2r k ≠ none := fun hno =>
            absurd hkdom ((lookupIdx_none_iff k2r k).mp hno)
          have hsum : sumCounts key k data_files = data_files.length :=
            hsum_iff.mpr (fun f hf =>
              hall f (hperm2.mem_iff.mp (List.mem_cons_of_mem main hf)))
          have hlc : lookupCount st.keysFound k = data_files.length := by
            rw [hcount hkne_none, hsum]
          have hdomk : k ∈ st.keysFound.map Prod.fst := by
            by_contra hx
            have hz := lookupCount_of_not_mem st.keysFound k hx
            rw [hlc] at hz
            omega
          have hmem2 : (k, lookupCount st.keysFound k) ∈ st.keysFound :=
            mem_fst_lookupCount st.keysFound k hdomk
          rw [hlc] at hmem2
          exact List.mem_map.mpr ⟨(k, data_files.length),
            List.mem_filter.mpr ⟨hmem2, by simp⟩, rfl⟩

/-- C2 witness: joining `exJfBase` (keys a, b) with `exJfBC` (keys b, c) on
column k produces exactly the key b, present in both inputs. -/
theorem inner_join_key_iff_amended_witness :
    inner_join_on_key [exJfBase, exJfBC] "k" = .ok exJoinOut ∧
    (∀ f ∈ [exJfBase, exJfBC],
      ((f.fileKeys "k").filter (fun s => !s.isEmpty)).Nodup) ∧
    ("b" ∈ joinOutputKeys [exJfBase, exJfBC] "k" exJoinOut ↔
      ∀ f ∈ [exJfBase, exJfBC], "b" ∈ f.fileKeys "k") :=
  ⟨by rfl, by decide,
    inner_join_key_iff_amended [exJfBase, exJfBC] "k" "b" exJoinOut (by rfl)
      (by decide) (by decide)⟩

/-- C2 counterexample to the unqualified claim: with a duplicate key `a` in
the non-base input `exJfDupA`, the key `a` is over-counted and emitted even
though the input `exJfOnlyB` does not contain it at all. -/
theorem inner_join_key_iff_cex :
    (∀ f ∈ [exJfBase, exJfDupA, exJfOnlyB], (f.header.get_col_num "k").isSome) ∧
    "a" ∈ joinOutputKeys [exJfBase, exJfDupA, exJfOnlyB] "k"
      (resDataFile (inner_join_on_key [exJfBase, exJfDupA, exJfOnlyB] "k")) ∧
    "a" ∉ exJfOnlyB.fileKeys "k" := by
  decide

-- C8: load_status

theorem get?_of_lt_length {α : Type} (l : List α) (j : Nat) (h : j < l.length) :
    ∃ x, l.get? j = some x := by
  rcases hg : l.get? j with _ | x
  · rw [List.get?_eq_none] at hg
    omega
  · exact ⟨x, rfl⟩

theorem statusAt_eq (run : WorkflowRunM) (j : Nat) (ns : WorkflowNodeStatus)
    (h : run.node_status.get? j = some ns) : statusAt run j = ns.status := by
  unfold statusAt
  rw [h]
  rfl

theorem uuidAt_eq (run : WorkflowRunM) (j : Nat) (ns : WorkflowNodeStatus)
    (h : run.node_status.get? j = some ns) : uuidAt run j = ns.uuid := by
  unfold uuidAt
  rw [h]
  rfl

theorem hasFileRow_cons (uuid : String) (id : Nat) (rest : List (String × Nat)) (j : Nat) :
    hasFileRow ((uuid, id) :: rest) j ↔ j = id ∨ hasFileRow rest j := by
  unfold hasFileRow
  simp

theorem fileUuidFor_cons_eq (uuid : String) (id : Nat) (rest : List (String × Nat)) :
    fileUuidFor ((uuid, id) :: rest) id = uuid := by
  unfold fileUuidFor
  rw [show ((uuid, id) :: rest).find? (fun p => p.2 == id) = some (uuid, id) by
    simp [List.find?]]
  rfl

theorem fileUuidFor_cons_ne (uuid : String) (id : Nat) (rest : List (String × Nat))
    (j : Nat) (h : j ≠ id) :
    fileUuidFor ((uuid, id) :: rest) j = fileUuidFor rest j := by
  unfold fileUuidFor
  rw [show ((uuid, id) :: rest).find? (fun p => p.2 == j) = rest.find? (fun p => p.2 == j) by
    have hb : (id == j) = false := by simpa using (Ne.symm h)
    simp [List.find?, hb]]

theorem foldl_modifyAt_length (ids : List Nat) (l : List WorkflowNodeStatus) :
    (ids.foldl (fun acc id =>
        modifyAt (fun x => ⟨x.node_id, x.status, x.uuid, true, x.error⟩) id acc) l).length
      = l.length := by
  induction ids generalizing l with
  | nil => rfl
  | cons a as ih => rw [List.foldl_cons, ih, modifyAt_length]

theorem foldl_modifyAt_fields (ids : List Nat) (l : List WorkflowNodeStatus) (j : Nat)
    (ns : WorkflowNodeStatus)
    (h : (ids.foldl (fun acc id =>
        modifyAt (fun x => ⟨x.node_id, x.status, x.uuid, true, x.error⟩) id acc) l).get? j
      = some ns) :
    ∃ ns0, l.get? j = some ns0 ∧ ns.node_id = ns0.node_id ∧ ns.status = ns0.status ∧
      ns.uuid = ns0.uuid := by
  induction ids generalizing l with
  | nil => exact ⟨ns, h, rfl, rfl, rfl⟩
  | cons a as ih =>
    rw [List.foldl_cons] at h
    obtain ⟨ns1, h1, hf1, hf2, hf3⟩ := ih _ h
    by_cases ha : a = j
    · subst ha
      rw [modifyAt_get?_eq] at h1
      rcases hg : l.get? a with _ | ns0
      · rw [hg] at h1
        cases h1
      · rw [hg] at h1
        have hns1 : ns1 = ⟨ns0.node_id, ns0.status, ns0.uuid, true, ns0.error⟩ :=
          (Option.some.inj h1).symm
        refine ⟨ns0, rfl, ?_, ?_, ?_⟩
        · rw [hf1, hns1]
        · rw [hf2, hns1]
        · rw [hf3, hns1]
    · rw [modifyAt_get?_ne _ _ _ _ ha] at h1
      exact ⟨ns1, h1, hf1, hf2, hf3⟩

theorem new_eq (n : Nat) (edges : List WorkflowEdge) :
    WorkflowRunM.new n edges =
      ⟨((List.range n).filter
          (fun id => !(edges.any (fun e => e.source_node == id)))).foldl
        (fun l id =>
          modifyAt (fun x => ⟨x.node_id, x.status, x.uuid, true, x.error⟩) id l)
        ((List.range n).map WorkflowNodeStatus.new), edges⟩ := rfl

theorem new_entry (n : Nat) (edges : List WorkflowEdge) (j : Nat)
    (ns : WorkflowNodeStatus)
    (h : (WorkflowRunM.new n edges).node_status.get? j = some ns) :
    ns.node_id = j ∧ ns.status = .WAITING ∧ ns.uuid = "" := by
  rw [new_eq] at h
  dsimp only at h
  obtain ⟨ns0, h0, hf1, hf2, hf3⟩ := foldl_modifyAt_fields _ _ j ns h
  rw [List.get?_map] at h0
  rcases hr : (List.range n).get? j with _ | m
  · rw [hr] at h0
    cases h0
  · rw [hr] at h0
    have hj : j < n := by
      by_contra hx
      rw [List.get?_eq_none.mpr (by simpa using hx)] at hr
      cases hr
    have hm : m = j := by
      rw [List.get?_range hj] at hr
      exact (Option.some.inj hr).symm
    have hns0 : ns0 = WorkflowNodeStatus.new m := (Option.some.inj h0).symm
    subst hm
    refine ⟨?_, ?_, ?_⟩
    · rw [hf1, hns0]
      rfl
    · rw [hf2, hns0]
      rfl
    · rw [hf3, hns0]
      rfl

theorem new_goodRun (n : Nat) (edges : List WorkflowEdge) :
    GoodRun n edges (WorkflowRunM.new n edges) := by
  refine ⟨by rw [new_eq], ?_, ?_⟩
  · rw [new_eq]
    dsimp only
    rw [foldl_modifyAt_length, List.length_map, List.length_range]
  · intro j ns h
    exact (new_entry n edges j ns h).1

theorem setFirstMatch_off (node_id : Nat) (uuid : String) (off : Nat)
    (l l' : List WorkflowNodeStatus)
    (hid : ∀ j ns, l.get? j = some ns → ns.node_id = off + j)
    (h : setFirstMatch node_id uuid l = some l') :
    ∃ j, node_id = off + j ∧ j < l.length ∧
      l' = modifyAt (fun x => ⟨x.node_id, .DONE, uuid, x.is_output_node, none⟩) j l := by
  induction l generalizing off l' with
  | nil => cases h
  | cons ns rest ih =>
    have h0 : ns.node_id = off := by simpa using hid 0 ns rfl
    unfold setFirstMatch at h
    by_cases hb : (ns.node_id == node_id) = true
    · rw [if_pos hb] at h
      have hoff : node_id = off := by
        have hx : ns.node_id = node_id := by simpa using hb
        omega
      refine ⟨0, by omega, by simp, ?_⟩
      rw [← Option.some.inj h]
      rfl
    · rw [if_neg hb] at h
      rcases hr : setFirstMatch node_id uuid rest with _ | l2
      · rw [hr] at h
        cases h
      · rw [hr] at h
        have hl' : l' = ns :: l2 := (Option.some.inj h).symm
        have hid2 : ∀ j ns2, rest.get? j = some ns2 → ns2.node_id = (off + 1) + j := by
          intro j ns2 hj
          have := hid (j + 1) ns2 (by simpa using hj)
          omega
        obtain ⟨j, hj1, hj2, hj3⟩ := ih (off + 1) l2 hid2 hr
        refine ⟨j + 1, by omega, by simpa using hj2, ?_⟩
        rw [hl', hj3]
        rfl

theorem loadMark_nil (run : WorkflowRunM) : loadMark run [] = .ok run := rfl

theorem loadMark_cons (run : WorkflowRunM) (uuid : String) (node_id : Nat)
    (rest : List (String × Nat)) :
    loadMark run ((uuid, node_id) :: rest) =
      match setFirstMatch node_id uuid run.node_status with
      | some ns2 => loadMark ⟨ns2, run.edges⟩ rest
      | none => .error "More nodes in files that in node_status for run" := rfl

theorem loadMark_spec (fileRows : List (String × Nat)) (run run' : WorkflowRunM)
    (hid : ∀ j ns, run.node_status.get? j = some ns → ns.node_id = j)
    (hnd : (fileRows.map Prod.snd).Nodup)
    (h : loadMark run fileRows = .ok run') :
    run'.edges = run.edges ∧
    run'.node_status.length = run.node_status.length ∧
    ∀ j ns0, run.node_status.get? j = some ns0 →
      (¬ hasFileRow fileRows j → run'.node_status.get? j = some ns0) ∧
      (hasFileRow fileRows j → run'.node_status.get? j
        = some ⟨j, .DONE, fileUuidFor fileRows j, ns0.is_output_node, none⟩) := by
  induction fileRows generalizing run with
  | nil =>
    have he : run = run' := by simpa [loadMark] using h
    subst he
    refine ⟨rfl, rfl, ?_⟩
    intro j ns0 h0
    refine ⟨fun _ => h0, fun hfr => ?_⟩
    exact absurd hfr (by simp [hasFileRow])
  | cons row rest ih =>
    obtain ⟨uuid, id⟩ := row
    rw [loadMark_cons] at h
    rcases hs : setFirstMatch id uuid run.node_status with _ | ns1
    · rw [hs] at h
      cases h
    · rw [hs] at h
      obtain ⟨j0, hj0eq, hj0lt, hns1⟩ := setFirstMatch_off id uuid 0 run.node_status ns1
        (fun j ns hj => by simpa using hid j ns hj) hs
      have hj0 : j0 = id := by omega
      subst hj0
      have hid1 : ∀ j ns, (WorkflowRunM.mk ns1 run.edges).node_status.get? j = some ns →
          ns.node_id = j := by
        intro j ns hj
        dsimp only at hj
        rw [hns1] at hj
        by_cases hcj : j0 = j
        · subst hcj
          rw [modifyAt_get?_eq] at hj
          rcases hgj : run.node_status.get? j0 with _ | nsa
          · rw [hgj] at hj
            cases hj
          · rw [hgj] at hj
            have hns : ns = ⟨nsa.node_id, .DONE, uuid, nsa.is_output_node, none⟩ :=
              (Option.some.inj hj).symm
            rw [hns]
            exact hid j0 nsa hgj
        · rw [modifyAt_get?_ne _ _ _ _ hcj] at hj
          exact hid j ns hj
      have hnc : j0 ∉ rest.map Prod.snd ∧ (rest.map Prod.snd).Nodup := by
        rw [List.map_cons] at hnd
        exact List.nodup_cons.mp hnd
      obtain ⟨hedg, hlen, hspec⟩ := ih ⟨ns1, run.edges⟩ hid1 hnc.2 h
      refine ⟨hedg, ?_, ?_⟩
      · rw [hlen]
        dsimp only
        rw [hns1, modifyAt_length]
      · intro j ns0 h0
        by_cases hcj : j = j0
        · subst hcj
          have h1 : (WorkflowRunM.mk ns1 run.edges).node_status.get? j
              = some ⟨ns0.node_id, .DONE, uuid, ns0.is_output_node, none⟩ := by
            dsimp only
            rw [hns1, modifyAt_get?_eq, h0]
            rfl
          have hfr : hasFileRow ((uuid, j) :: rest) j :=
            (hasFileRow_cons uuid j rest j).mpr (Or.inl rfl)
          have hnfr : ¬ hasFileRow rest j := fun hx => hnc.1 hx
          obtain ⟨hkeep, -⟩ := hspec j _ h1
          have hres := hkeep hnfr
          refine ⟨fun hno => absurd hfr hno, fun _ => ?_⟩
          rw [hres, fileUuidFor_cons_eq, hid j ns0 h0]
        · have h1 : (WorkflowRunM.mk ns1 run.edges).node_status.get? j = some ns0 := by
            dsimp only
            rw [hns1, modifyAt_get?_ne _ _ _ _ (fun he => hcj he.symm)]
            exact h0
          obtain ⟨hkeep, hmark⟩ := hspec j ns0 h1
          constructor
          · intro hno
            exact hkeep (fun hx =>
              hno ((hasFileRow_cons uuid j0 rest j).mpr (Or.inr hx)))
          · intro hfr
            rcases (hasFileRow_cons uuid j0 rest j).mp hfr with he | hx
            · exact absurd he hcj
            · rw [hmark hx, fileUuidFor_cons_ne uuid j0 rest j hcj]

theorem demote_fst (run : WorkflowRunM) (redo : List Nat) :
    (demote run redo).1 =
      ⟨run.node_status.map (fun ns => if redo.contains ns.node_id then
          ⟨ns.node_id, .WAITING, "", ns.is_output_node, none⟩ else ns), run.edges⟩ := rfl

theorem demote_snd (run : WorkflowRunM) (redo : List Nat) :
    (demote run redo).2 =
      (run.node_status.filter (fun ns => redo.contains ns.node_id)).map
        (fun ns => ns.uuid) := rfl

theorem goodRun_demote (n : Nat) (edges : List WorkflowEdge) (run : WorkflowRunM)
    (redo : List Nat) (hg : GoodRun n edges run) :
    GoodRun n edges (demote run redo).1 := by
  obtain ⟨he, hl, hid⟩ := hg
  refine ⟨by rw [demote_fst]; exact he, ?_, ?_⟩
  · rw [demote_fst]
    dsimp only
    rw [List.length_map]
    exact hl
  · intro j ns h
    rw [demote_fst] at h
    dsimp only at h
    rw [List.get?_map] at h
    rcases hg2 : run.node_status.get? j with _ | ns0
    · rw [hg2] at h
      cases h
    · rw [hg2] at h
      have hns : ns = if redo.contains ns0.node_id = true then
          ⟨ns0.node_id, .WAITING, "", ns0.is_output_node, none⟩ else ns0 :=
        (Option.some.inj h).symm
      have hid0 := hid j ns0 hg2
      rw [hns]
      by_cases hc : redo.contains ns0.node_id = true
      · rw [if_pos hc]
        exact hid0
      · rw [if_neg hc]
        exact hid0

theorem markInv_demote (fileRows : List (String × Nat)) (removed : List String)
    (n : Nat) (edges : List WorkflowEdge) (run : WorkflowRunM) (redo : List Nat)
    (hg : GoodRun n edges run) (hinv : MarkInv fileRows removed run) :
    MarkInv fileRows (removed ++ (demote run redo).2) (demote run redo).1 := by
  intro j ns h
  rw [demote_fst] at h
  dsimp only at h
  rw [List.get?_map] at h
  rcases hg2 : run.node_status.get? j with _ | ns0
  · rw [hg2] at h
    cases h
  · rw [hg2] at h
    have hns : ns = if redo.contains ns0.node_id = true then
        ⟨ns0.node_id, .WAITING, "", ns0.is_output_node, none⟩ else ns0 :=
      (Option.some.inj h).symm
    rcases hinv j ns0 hg2 with ⟨hd, hu, hf⟩ | ⟨hw, hu, hf⟩
    · by_cases hc : redo.contains ns0.node_id = true
      · right
        rw [hns, if_pos hc]
        refine ⟨rfl, rfl, fun _ => ?_⟩
        refine List.mem_append_right _ ?_
        rw [demote_snd, ← hu]
        exact List.mem_map.mpr ⟨ns0, List.mem_filter.mpr ⟨List.get?_mem hg2, hc⟩, rfl⟩
      · left
        rw [hns, if_neg hc]
        exact ⟨hd, hu, hf⟩
    · by_cases hc : redo.contains ns0.node_id = true
      · right
        rw [hns, if_pos hc]
        exact ⟨rfl, rfl, fun hfr => List.mem_append_left _ (hf hfr)⟩
      · right
        rw [hns, if_neg hc]
        exact ⟨hw, hu, fun hfr => List.mem_append_left _ (hf hfr)⟩

theorem mem_doneIds_iff (n : Nat) (edges : List WorkflowEdge) (run : WorkflowRunM)
    (hg : GoodRun n edges run) (id : Nat) :
    id ∈ doneIds run ↔ ∃ ns, run.node_status.get? id = some ns ∧ ns.is_done = true := by
  constructor
  · intro h
    rcases List.mem_map.mp h with ⟨ns, hf, hid2⟩
    rcases List.mem_filter.mp hf with ⟨hmem, hdone⟩
    rcases List.get?_of_mem hmem with ⟨j, hj⟩
    have hjid : id = j := by
      rw [← hid2]
      exact hg.2.2 j ns hj
    subst hjid
    exact ⟨ns, hj, hdone⟩
  · intro hx
    obtain ⟨ns, hget, hdone⟩ := hx
    exact List.mem_map.mpr ⟨ns,
      List.mem_filter.mpr ⟨List.get?_mem hget, hdone⟩, hg.2.2 id ns hget⟩

theorem mem_todoIds_iff (n : Nat) (edges : List WorkflowEdge) (run : WorkflowRunM)
    (hg : GoodRun n edges run) (id : Nat) :
    id ∈ todoIds run ↔ ∃ ns, run.node_status.get? id = some ns ∧ ns.is_done = false := by
  constructor
  · intro h
    rcases List.mem_map.mp h with ⟨ns, hf, hid2⟩
    rcases List.mem_filter.mp hf with ⟨hmem, hdone⟩
    rcases List.get?_of_mem hmem with ⟨j, hj⟩
    have hjid : id = j := by
      rw [← hid2]
      exact hg.2.2 j ns hj
    subst hjid
    exact ⟨ns, hj, by simpa using hdone⟩
  · intro hx
    obtain ⟨ns, hget, hdone⟩ := hx
    exact List.mem_map.mpr ⟨ns,
      List.mem_filter.mpr ⟨List.get?_mem hget, by simp [hdone]⟩, hg.2.2 id ns hget⟩

theorem redoIds_subset_done (n : Nat) (edges : List WorkflowEdge) (run : WorkflowRunM)
    (hg : GoodRun n edges run) :
    ∀ id ∈ redoIds run, ∃ ns, run.node_status.get? id = some ns ∧ ns.is_done = true := by
  intro id hid2
  unfold redoIds at hid2
  rcases List.mem_map.mp hid2 with ⟨e, hef, het⟩
  rcases List.mem_filter.mp hef with ⟨hef1, -⟩
  rcases List.mem_filter.mp hef1 with ⟨-, htgt⟩
  have hmem : e.target_node ∈ doneIds run := by simpa using htgt
  rw [het] at hmem
  exact (mem_doneIds_iff n edges run hg id).mp hmem

theorem countP_map_le {α : Type} (p : α → Bool) (g : α → α) (l : List α)
    (hle : ∀ x ∈ l, p (g x) = true → p x = true) :
    (l.map g).countP p ≤ l.countP p := by
  induction l with
  | nil => simp
  | cons a as ih =>
    have hrest := ih (fun x hx => hle x (List.mem_cons_of_mem a hx))
    by_cases hpa : p (g a) = true
    · rw [List.map_cons, List.countP_cons, List.countP_cons, if_pos hpa,
        if_pos (hle a (List.mem_cons_self a as) hpa)]
      omega
    · rw [List.map_cons, List.countP_cons, List.countP_cons, if_neg hpa]
      by_cases hb : p a = true
      · rw [if_pos hb]
        omega
      · rw [if_neg hb]
        omega

theorem countP_map_lt {α : Type} (p : α → Bool) (g : α → α) (l : List α)
    (hle : ∀ x ∈ l, p (g x) = true → p x = true)
    (x0 : α) (hx0 : x0 ∈ l) (h1 : p x0 = true) (h2 : p (g x0) = false) :
    (l.map g).countP p < l.countP p := by
  induction l with
  | nil => cases hx0
  | cons a as ih =>
    have hrest := countP_map_le p g as (fun x hx => hle x (List.mem_cons_of_mem a hx))
    rcases List.mem_cons.mp hx0 with he | hx0'
    · subst he
      rw [List.map_cons, List.countP_cons, List.countP_cons, if_pos h1,
        if_neg (by simp [h2])]
      omega
    · have hstrict := ih (fun x hx => hle x (List.mem_cons_of_mem a hx)) hx0'
      by_cases hpa : p (g a) = true
      · rw [List.map_cons, List.countP_cons, List.countP_cons, if_pos hpa,
        if_pos (hle a (List.mem_cons_self a as) hpa)]
        omega
      · rw [List.map_cons, List.countP_cons, List.countP_cons, if_neg hpa]
        by_cases hb : p a = true
        · rw [if_pos hb]
          omega
        · rw [if_neg hb]
          omega

theorem countDone_demote_lt (n : Nat) (edges : List WorkflowEdge) (run : WorkflowRunM)
    (hg : GoodRun n edges run) (hne : redoIds run ≠ []) :
    countDone (demote run (redoIds run)).1 < countDone run := by
  obtain ⟨id0, hid0⟩ := List.exists_mem_of_ne_nil _ hne
  obtain ⟨ns0, hg0, hd0⟩ := redoIds_subset_done n edges run hg id0 hid0
  have hcc : countDone run = run.node_status.countP (fun ns => ns.is_done) := by
    unfold countDone
    exact (List.countP_eq_length_filter _ _).symm
  have hcc2 : countDone (demote run (redoIds run)).1
      = (run.node_status.map (fun ns => if (redoIds run).contains ns.node_id then
          ⟨ns.node_id, .WAITING, "", ns.is_output_node, none⟩ else ns)).countP
        (fun ns => ns.is_done) := by
    rw [demote_fst]
    unfold countDone
    dsimp only
    exact (List.countP_eq_length_filter _ _).symm
  rw [hcc, hcc2]
  refine countP_map_lt _ _ _ ?_ ns0 (List.get?_mem hg0) hd0 ?_
  · intro x hx hpx
    by_cases hcx : (redoIds run).contains x.node_id = true
    · rw [if_pos hcx] at hpx
      simp [WorkflowNodeStatus.is_done] at hpx
    · rw [if_neg hcx] at hpx
      exact hpx
  · rw [hg.2.2 id0 ns0 hg0]
    rw [if_pos (by simpa using hid0)]
    rfl

theorem loadLoop_succ_empty (fuel : Nat) (run : WorkflowRunM) (removed : List String)
    (h : (redoIds run).isEmpty = true) :
    loadLoop (fuel + 1) run removed = (run, removed) := by
  show (if (redoIds run).isEmpty = true then (run, removed)
      else loadLoop fuel (demote run (redoIds run)).1
        (removed ++ (demote run (redoIds run)).2)) = _
  rw [if_pos h]

theorem loadLoop_succ_step (fuel : Nat) (run : WorkflowRunM) (removed : List String)
    (h : (redoIds run).isEmpty = false) :
    loadLoop (fuel + 1) run removed
      = loadLoop fuel (demote run (redoIds run)).1
          (removed ++ (demote run (redoIds run)).2) := by
  show (if (redoIds run).isEmpty = true then (run, removed)
      else loadLoop fuel (demote run (redoIds run)).1
        (removed ++ (demote run (redoIds run)).2)) = _
  rw [if_neg (by simp [h])]

theorem closedDone_demote (fileRows : List (String × Nat)) (n : Nat)
    (edges : List WorkflowEdge) (run : WorkflowRunM)
    (hg : GoodRun n edges run) (hcd : ClosedDone fileRows edges run) :
    ClosedDone fileRows edges (demote run (redoIds run)).1 := by
  intro j ns h hfr hanc
  rw [demote_fst] at h
  dsimp only at h
  rw [List.get?_map] at h
  rcases hg2 : run.node_status.get? j with _ | ns0
  · rw [hg2] at h
    cases h
  · rw [hg2] at h
    have hns : ns = if (redoIds run).contains ns0.node_id = true then
        ⟨ns0.node_id, .WAITING, "", ns0.is_output_node, none⟩ else ns0 :=
      (Option.some.inj h).symm
    have hid0 := hg.2.2 j ns0 hg2
    have hdone0 : ns0.status = .DONE := hcd j ns0 hg2 hfr hanc
    have hnotin : (redoIds run).contains ns0.node_id = false := by
      rw [hid0]
      cases hxx : (redoIds run).contains j
      · rfl
      · exfalso
        have hmem : j ∈ redoIds run := by simpa using hxx
        unfold redoIds at hmem
        rcases List.mem_map.mp hmem with ⟨e, hef, het⟩
        rcases List.mem_filter.mp hef with ⟨hef1, hsrc⟩
        rcases List.mem_filter.mp hef1 with ⟨hee, -⟩
        have hsrc2 : e.source_node ∈ todoIds run := by simpa using hsrc
        obtain ⟨nss, hgs, hds⟩ := (mem_todoIds_iff n edges run hg e.source_node).mp hsrc2
        have hee2 : e ∈ edges := by
          rw [← hg.1]
          exact hee
        have hstep : isAncestor edges e.source_node j :=
          Relation.TransGen.single ⟨e, hee2, rfl, het⟩
        have hfrs : hasFileRow fileRows e.source_node := hanc _ hstep
        have hancss : ∀ a, isAncestor edges a e.source_node → hasFileRow fileRows a := by
          intro a ha
          exact hanc a (Relation.TransGen.tail ha ⟨e, hee2, rfl, het⟩)
        have hds2 := hcd e.source_node nss hgs hfrs hancss
        unfold WorkflowNodeStatus.is_done at hds
        rw [hds2] at hds
        simp at hds
    rw [hns, if_neg (by rw [hnotin]; simp)]
    exact hdone0

theorem loadLoop_spec (fileRows : List (String × Nat)) (n : Nat)
    (edges : List WorkflowEdge) (fuel : Nat) (run : WorkflowRunM)
    (removed : List String)
    (hg : GoodRun n edges run) (h1 : MarkInv fileRows removed run)
    (h2 : ClosedDone fileRows edges run)
    (hfuel : countDone run ≤ fuel) :
    GoodRun n edges (loadLoop fuel run removed).1 ∧
    MarkInv fileRows (loadLoop fuel run removed).2 (loadLoop fuel run removed).1 ∧
    ClosedDone fileRows edges (loadLoop fuel run removed).1 ∧
    redoIds (loadLoop fuel run removed).1 = [] := by
  induction fuel generalizing run removed with
  | zero =>
    have hcd : run.node_status.filter (fun ns => ns.is_done) = [] := by
      apply List.length_eq_zero.mp
      have : countDone run = 0 := by omega
      unfold countDone at this
      exact this
    have hdone : doneIds run = [] := by
      unfold doneIds
      rw [hcd]
      simp
    have hredo : redoIds run = [] := by
      unfold redoIds
      rw [show run.edges.filter (fun e => (doneIds run).contains e.target_node) = [] by
        rw [hdone]
        simp]
      rfl
    exact ⟨hg, h1, h2, hredo⟩
  | succ fuel ih =>
    by_cases hr : (redoIds run).isEmpty = true
    · rw [loadLoop_succ_empty fuel run removed hr]
      exact ⟨hg, h1, h2, by simpa using hr⟩
    · have hrf : (redoIds run).isEmpty = false := Bool.eq_false_iff.mpr hr
      rw [loadLoop_succ_step fuel run removed hrf]
      have hne : redoIds run ≠ [] := by
        intro he
        rw [he] at hrf
        cases hrf
      have hg2 := goodRun_demote n edges run (redoIds run) hg
      have h12 := markInv_demote fileRows removed n edges run (redoIds run) hg h1
      have h22 := closedDone_demote fileRows n edges run hg h2
      have hlt := countDone_demote_lt n edges run hg hne
      exact ih _ _ hg2 h12 h22 (by omega)

theorem fix_step (n : Nat) (edges : List WorkflowEdge) (run : WorkflowRunM)
    (hg : GoodRun n edges run) (hfix : redoIds run = [])
    (hedge : ∀ e ∈ edges, e.source_node < n ∧ e.target_node < n)
    (a b : Nat) (h : ∃ e ∈ edges, e.source_node = a ∧ e.target_node = b)
    (hb : statusAt run b = .DONE) : statusAt run a = .DONE ∧ a < n := by
  obtain ⟨e, he, hsa, htb⟩ := h
  obtain ⟨hs, ht⟩ := hedge e he
  rw [hsa] at hs
  rw [htb] at ht
  obtain ⟨nsb, hnsb⟩ := get?_of_lt_length run.node_status b (by rw [hg.2.1]; exact ht)
  obtain ⟨nsa, hnsa⟩ := get?_of_lt_length run.node_status a (by rw [hg.2.1]; exact hs)
  refine ⟨?_, hs⟩
  by_contra hnd2
  have hbdone : nsb.is_done = true := by
    unfold WorkflowNodeStatus.is_done
    rw [show nsb.status = .DONE by rw [← statusAt_eq run b nsb hnsb]; exact hb]
    rfl
  have hsne : nsa.status ≠ .DONE := by
    intro hx
    exact hnd2 (by rw [statusAt_eq run a nsa hnsa, hx])
  have hatodo : nsa.is_done = false := by
    unfold WorkflowNodeStatus.is_done
    simpa using hsne
  have hbmem : b ∈ doneIds run :=
    (mem_doneIds_iff n edges run hg b).mpr ⟨nsb, hnsb, hbdone⟩
  have hamem : a ∈ todoIds run :=
    (mem_todoIds_iff n edges run hg a).mpr ⟨nsa, hnsa, hatodo⟩
  have he2 : e ∈ run.edges := by
    rw [hg.1]
    exact he
  have hmem : e.target_node ∈ redoIds run := by
    unfold redoIds
    refine List.mem_map.mpr ⟨e, ?_, rfl⟩
    refine List.mem_filter.mpr ⟨List.mem_filter.mpr ⟨he2, ?_⟩, ?_⟩
    · rw [htb]
      simpa using hbmem
    · rw [hsa]
      simpa using hamem
  rw [hfix] at hmem
  cases hmem

theorem done_ancestors (n : Nat) (edges : List WorkflowEdge) (run : WorkflowRunM)
    (hg : GoodRun n edges run) (hfix : redoIds run = [])
    (hedge : ∀ e ∈ edges, e.source_node < n ∧ e.target_node < n)
    (a b : Nat) (hab : isAncestor edges a b) (hb : statusAt run b = .DONE) :
    statusAt run a = .DONE ∧ a < n := by
  unfold isAncestor at hab
  revert hb
  induction hab with
  | single h => exact fun hb => fix_step n edges run hg hfix hedge _ _ h hb
  | tail h1 h2 ih =>
    exact fun hb => ih (fix_step n edges run hg hfix hedge _ _ h2 hb).1

/-- C8 (confirmed): after `load_status` of a re-entered run (built by
`WorkflowRun::new` over nodes `0..n` with in-range edges and one `file` row
per node), a node is DONE iff a persisted file row exists for it and for
every one of its ancestors in the edge graph; and every node that had a
file row but ends up non-DONE is reset to WAITING with its recorded uuid
cleared and its artifact uuid collected for removal. -/
theorem load_status_done_iff_ancestors (n : Nat) (edges : List WorkflowEdge)
    (fileRows : List (String × Nat)) (run' : WorkflowRunM) (removed : List String)
    (i : Nat)
    (hnd : (fileRows.map Prod.snd).Nodup)
    (hedge : ∀ e ∈ edges, e.source_node < n ∧ e.target_node < n)
    (hok : load_status (WorkflowRunM.new n edges) fileRows = .ok (run', removed))
    (hi : i < n) :
    (statusAt run' i = .DONE ↔
      (hasFileRow fileRows i ∧ ∀ a, isAncestor edges a i → hasFileRow fileRows a)) ∧
    (hasFileRow fileRows i → statusAt run' i ≠ .DONE →
      statusAt run' i = .WAITING ∧ uuidAt run' i = "" ∧
        fileUuidFor fileRows i ∈ removed) := by
  unfold load_status at hok
  rcases hlm : loadMark (WorkflowRunM.new n edges) fileRows with e | run1
  · rw [hlm] at hok
    cases hok
  · rw [hlm] at hok
    replace hok : (Except.ok (loadLoop run1.node_status.length run1 [])
        : Except String (WorkflowRunM × List String)) = .ok (run', removed) := hok
    have hpair := Except.ok.inj hok
    have hg0 := new_goodRun n edges
    obtain ⟨hedg1, hlen1, hspec1⟩ :=
      loadMark_spec fileRows (WorkflowRunM.new n edges) run1 hg0.2.2 hnd hlm
    have hlen1n : run1.node_status.length = n := by
      rw [hlen1]
      exact hg0.2.1
    have hentry1 : ∀ j, j < n → ∀ ns, run1.node_status.get? j = some ns →
        ∃ ns0, (WorkflowRunM.new n edges).node_status.get? j = some ns0 ∧
          ((¬ hasFileRow fileRows j ∧ ns = ns0) ∨
            (hasFileRow fileRows j ∧
              ns = ⟨j, .DONE, fileUuidFor fileRows j, ns0.is_output_node, none⟩)) := by
      intro j hj ns hns
      obtain ⟨ns0, hns0⟩ := get?_of_lt_length (WorkflowRunM.new n edges).node_status j
        (by rw [hg0.2.1]; exact hj)
      obtain ⟨hkeep, hmark⟩ := hspec1 j ns0 hns0
      by_cases hfr : hasFileRow fileRows j
      · refine ⟨ns0, hns0, Or.inr ⟨hfr, ?_⟩⟩
        have := hmark hfr
        rw [hns] at this
        exact Option.some.inj this
      · refine ⟨ns0, hns0, Or.inl ⟨hfr, ?_⟩⟩
        have := hkeep hfr
        rw [hns] at this
        exact Option.some.inj this
    have hg1 : GoodRun n edges run1 := by
      refine ⟨hedg1.trans hg0.1, hlen1n, ?_⟩
      intro j ns hns
      have hj : j < n := by
        by_contra hx
        rw [List.get?_eq_none.mpr (by omega : run1.node_status.length ≤ j)] at hns
        · cases hns
      obtain ⟨ns0, hns0, hbr⟩ := hentry1 j hj ns hns
      rcases hbr with ⟨-, he⟩ | ⟨-, he⟩
      · rw [he]
        exact (new_entry n edges j ns0 hns0).1
      · rw [he]
    have h1inv : MarkInv fileRows [] run1 := by
      intro j ns hns
      have hj : j < n := by
        by_contra hx
        rw [List.get?_eq_none.mpr (by omega : run1.node_status.length ≤ j)] at hns
        · cases hns
      obtain ⟨ns0, hns0, hbr⟩ := hentry1 j hj ns hns
      rcases hbr with ⟨hnfr, he⟩ | ⟨hfr, he⟩
      · right
        obtain ⟨-, hw, hu⟩ := new_entry n edges j ns0 hns0
        rw [he]
        exact ⟨hw, hu, fun hx => absurd hx hnfr⟩
      · left
        rw [he]
        exact ⟨rfl, rfl, hfr⟩
    have h2cd : ClosedDone fileRows edges run1 := by
      intro j ns hns hfr hanc
      have hj : j < n := by
        by_contra hx
        rw [List.get?_eq_none.mpr (by omega : run1.node_status.length ≤ j)] at hns
        · cases hns
      obtain ⟨ns0, hns0, hbr⟩ := hentry1 j hj ns hns
      rcases hbr with ⟨hnfr, -⟩ | ⟨-, he⟩
      · exact absurd hfr hnfr
      · rw [he]
    obtain ⟨hgF, hIF, hCF, hfixF⟩ := loadLoop_spec fileRows n edges
      run1.node_status.length run1 [] hg1 h1inv h2cd
      (by unfold countDone; exact List.length_filter_le _ _)
    rw [hpair] at hgF hIF hCF hfixF
    obtain ⟨nsi, hnsi⟩ := get?_of_lt_length run'.node_status i
      (by rw [show run'.node_status.length = n from hgF.2.1]; exact hi)
    have hsi := statusAt_eq run' i nsi hnsi
    constructor
    · constructor
      · intro hdone
        rcases hIF i nsi hnsi with ⟨hd, hu, hf⟩ | ⟨hw, -, -⟩
        · refine ⟨hf, ?_⟩
          intro a ha
          obtain ⟨hda, han⟩ := done_ancestors n edges run' hgF hfixF hedge a i ha hdone
          obtain ⟨nsa, hnsa⟩ := get?_of_lt_length run'.node_status a
            (by rw [show run'.node_status.length = n from hgF.2.1]; exact han)
          rcases hIF a nsa hnsa with ⟨-, -, hfa⟩ | ⟨hwa, -, -⟩
          · exact hfa
          · rw [statusAt_eq run' a nsa hnsa, hwa] at hda
            cases hda
        · rw [hsi, hw] at hdone
          cases hdone
      · intro hP
        rw [hsi]
        exact hCF i nsi hnsi hP.1 hP.2
    · intro hfr hnotdone
      rcases hIF i nsi hnsi with ⟨hd, -, -⟩ | ⟨hw, hu, hf⟩
      · rw [hsi] at hnotdone
        exact absurd hd hnotdone
      · exact ⟨by rw [hsi, hw], by rw [uuidAt_eq run' i nsi hnsi, hu], hf hfr⟩

/-- C8 witness: the chain 0 → 1 → 2 with a persisted file row only for
node 1: node 1 is demoted back to WAITING, its uuid cleared and collected
for deletion, and no node is DONE. -/
theorem load_status_done_iff_ancestors_witness :
    load_status (WorkflowRunM.new 3 exChainEdges) [("uuidB", 1)]
      = .ok (exC8Run, ["uuidB"]) ∧
    ([("uuidB", 1)].map Prod.snd).Nodup ∧
    (∀ e ∈ exChainEdges, e.source_node < 3 ∧ e.target_node < 3) ∧
    ((statusAt exC8Run 1 = .DONE ↔
        (hasFileRow [("uuidB", 1)] 1 ∧
          ∀ a, isAncestor exChainEdges a 1 → hasFileRow [("uuidB", 1)] a)) ∧
      (hasFileRow [("uuidB", 1)] 1 → statusAt exC8Run 1 ≠ .DONE →
        statusAt exC8Run 1 = .WAITING ∧ uuidAt exC8Run 1 = "" ∧
          fileUuidFor [("uuidB", 1)] 1 ∈ ["uuidB"])) :=
  ⟨by rfl, by decide, by decide,
    load_status_done_iff_ancestors 3 exChainEdges [("uuidB", 1)] exC8Run ["uuidB"] 1
      (by decide) (by decide) (by rfl) (by decide)⟩

end Toolflow
